import Mathlib

/-!
# UnorderedMap: a hash index over an insertion-ordered linked list

Shallow embedding of `src/unordered_map.h`.

* Memory is modelled field by field: `val`, `left` and `right` map a cell
  address to the contents of that field.  Addresses are natural numbers,
  address `0` is the null pointer and `next` is the first address that was
  never handed out; `allocate` returns `next` and never fails, and the address
  of a released cell is not handed out again.  A cell whose `val` is `none`
  holds no constructed entry (the sentinel, a released cell, a cell never
  allocated); reading the entry of such a cell is undefined behaviour and makes
  the operation return `none`.  The links of a released cell keep their last
  contents: reading an entry is checked, following a link is not.
* `size_t` counters are natural numbers: the number of cells is bounded by the
  address space, so no counter of the program wraps.
* `max_load_factor_value` is the constant `1` (the class has no setter), so
  `n * max_load_factor_value` is `n`.
* Operations that can run into undefined behaviour (reading an entry that is
  not there, `% 0`, indexing a vector out of range) or whose loops follow links
  return `Option`; loops that follow links carry a step budget, and the
  theorems show that on reachable maps the budget used is enough.
-/

namespace UMap

variable {K V : Type}

/-- Pointwise update of a memory field. -/
def upd {β : Type} (f : Nat → β) (a : Nat) (b : β) : Nat → β :=
  fun c => if c = a then b else f c

/-- The class `List<T, Allocator>` with `T = pair<const Key, Value>`: the
sentinel pointer `root`, the counter `sz`, and the memory of the `Node`s
(fields `val`, `left`, `right`) together with the allocation frontier. -/
structure LinkedList (K V : Type) where
  root : Nat
  sz : Nat
  val : Nat → Option (K × V)
  left : Nat → Nat
  right : Nat → Nat
  next : Nat

namespace LinkedList

/-- Source `List::makeEnd`: allocate the sentinel and link it to itself. -/
def makeEnd (l : LinkedList K V) : LinkedList K V :=
  let r := l.next
  { l with root := r, left := upd l.left r r, right := upd l.right r r, next := r + 1 }

/-- Source `List::List()`: `root(nullptr), sz(0)` followed by `makeEnd()`. -/
def new : LinkedList K V :=
  makeEnd { root := 0, sz := 0, val := fun _ => none, left := fun _ => 0,
            right := fun _ => 0, next := 1 }

/-- Source `List::begin`: `root -> right`. -/
def «begin» (l : LinkedList K V) : Nat := l.right l.root

/-- Source `List::end`: `root`. -/
def «end» (l : LinkedList K V) : Nat := l.root

/-- Source `List::size`. -/
def size (l : LinkedList K V) : Nat := l.sz

/-- Source `List::emplace_back`. -/
def emplace_back (l : LinkedList K V) (kv : K × V) : LinkedList K V :=
  let x := l.next
  let val1 := upd l.val x (some kv)
  let sz1 := l.sz + 1
  let left1 := upd l.left x (l.left l.root)
  let right1 := upd l.right x l.root
  let right2 := upd right1 (left1 l.root) x
  let left2 := upd left1 l.root x
  { root := l.root, sz := sz1, val := val1, left := left2, right := right2, next := x + 1 }

/-- Source `List::erase`: unlink the cell, then destroy and release it. -/
def erase (l : LinkedList K V) (ptr : Nat) : LinkedList K V :=
  let sz1 := l.sz - 1
  let right1 := upd l.right (l.left ptr) (l.right ptr)
  let left1 := upd l.left (right1 ptr) (l.left ptr)
  { root := l.root, sz := sz1, val := upd l.val ptr none, left := left1, right := right1,
    next := l.next }

/-- Source `List::pop_back`: `erase(--end())`. -/
def pop_back (l : LinkedList K V) : LinkedList K V :=
  l.erase (l.left l.«end»)

/-- The loop `for (it = cur; it != end(); ++it)` collecting the handles it
visits; `none` when the step budget runs out. -/
def walk (l : LinkedList K V) : Nat → Nat → Option (List Nat)
  | 0, _ => none
  | fuel + 1, cur =>
    if cur = l.«end» then some []
    else match walk l fuel (l.right cur) with
      | none => none
      | some rest => some (cur :: rest)

/-- Handles visited by forward traversal from `begin()` to `end()`.  Every
allocated address is below `next`, so a traversal that ends at all ends within
`next` steps. -/
def handles (l : LinkedList K V) : Option (List Nat) :=
  l.walk l.next l.«begin»

/-- Dereference every handle of a list of handles (`*it`). -/
def derefAll (l : LinkedList K V) : List Nat → Option (List (K × V))
  | [] => some []
  | a :: rest =>
    match l.val a, derefAll l rest with
    | some kv, some kvs => some (kv :: kvs)
    | _, _ => none

/-- Entries visited by forward traversal from `begin()` to `end()`. -/
def toList (l : LinkedList K V) : Option (List (K × V)) :=
  match l.handles with
  | none => none
  | some hs => l.derefAll hs

end LinkedList

/-- The class `UnorderedMap`: `table` is the vector of chains of iterators,
`data` the list that owns the entries. -/
structure UnorderedMap (K V : Type) where
  table : List (List Nat)
  data : LinkedList K V

namespace UnorderedMap

/-- Source `UnorderedMap::UnorderedMap()`: `table(1)` and a default-constructed list. -/
def new : UnorderedMap K V := { table := [[]], data := LinkedList.new }

/-- Source `UnorderedMap::size`. -/
def size (m : UnorderedMap K V) : Nat := m.data.size

/-- Source `UnorderedMap::end`. -/
def «end» (m : UnorderedMap K V) : Nat := m.data.«end»

/-- Source `UnorderedMap::begin`. -/
def «begin» (m : UnorderedMap K V) : Nat := m.data.«begin»

/-- Number of chains, `table.size()`. -/
def capacity (m : UnorderedMap K V) : Nat := m.table.length

/-- The expression `Hash()(key) % table.size()`; undefined for an empty table. -/
def direct_adress (Hash : K → Nat) (key : K) (n : Nat) : Option Nat :=
  if n = 0 then none else some (Hash key % n)

/-- The scan of one chain in `find_pos`, from index `i` on: the index of the
first handle whose key is `Equal` to `key`. -/
def find_pos_scan (Equal : K → K → Bool) (l : LinkedList K V) (key : K) :
    List Nat → Nat → Option (Option Nat)
  | [], _ => some none
  | a :: rest, i =>
    match l.val a with
    | none => none
    | some kv => if Equal kv.1 key then some (some i) else find_pos_scan Equal l key rest (i + 1)

/-- Source `UnorderedMap::find_pos`. -/
def find_pos (Hash : K → Nat) (Equal : K → K → Bool) (m : UnorderedMap K V) (key : K) :
    Option (Nat × Nat) :=
  if m.data.size = 0 then some (m.table.length, 0)
  else match direct_adress Hash key m.table.length with
    | none => none
    | some d =>
      match m.table[d]? with
      | none => none
      | some chain =>
        match find_pos_scan Equal m.data key chain 0 with
        | none => none
        | some (some i) => some (d, i)
        | some none => some (m.table.length, 0)

/-- Source `UnorderedMap::find`. -/
def find (Hash : K → Nat) (Equal : K → K → Bool) (m : UnorderedMap K V) (key : K) :
    Option Nat :=
  match find_pos Hash Equal m key with
  | none => none
  | some pos =>
    if pos.1 = m.table.length then some m.«end»
    else match m.table[pos.1]? with
      | none => none
      | some chain => chain[pos.2]?

/-- The loop of `rehash` that computes the new chain count:
`while (cur_size < data.size()) cur_size = (cur_size << 1) + 1`. -/
def grow (n : Nat) : Nat → Nat → Option Nat
  | 0, _ => none
  | fuel + 1, cur_size => if cur_size < n then grow n fuel (2 * cur_size + 1) else some cur_size

/-- The loop of `rehash` that records every entry of `data` in its chain. -/
def rehash_fill (Hash : K → Nat) (l : LinkedList K V) :
    Nat → Nat → List (List Nat) → Option (List (List Nat))
  | 0, _, _ => none
  | fuel + 1, i, table =>
    if i = l.«end» then some table
    else match l.val i with
      | none => none
      | some kv =>
        match direct_adress Hash kv.1 table.length with
        | none => none
        | some d =>
          match table[d]? with
          | none => none
          | some chain => rehash_fill Hash l fuel (l.right i) (table.set d (chain ++ [i]))

/-- Source `UnorderedMap::rehash`.  The first loop adds at least one per round and
stops at `data.size()`, so `data.size() + 1` rounds are a sufficient budget;
the second loop is a traversal of `data`. -/
def rehash (Hash : K → Nat) (m : UnorderedMap K V) : Option (UnorderedMap K V) :=
  match grow m.data.size (m.data.size + 1) m.table.length with
  | none => none
  | some cur_size =>
    match rehash_fill Hash m.data m.data.next m.data.«begin» (List.replicate cur_size []) with
    | none => none
    | some table => some { table := table, data := m.data }

/-- Source `UnorderedMap::fix`. -/
def fix (Hash : K → Nat) (m : UnorderedMap K V) : Option (UnorderedMap K V) :=
  if m.table.length < m.data.size then rehash Hash m else some m

/-- Source `UnorderedMap::emplace`: the result is the new map together with the
returned pair `(iterator, inserted)`. -/
def emplace (Hash : K → Nat) (Equal : K → K → Bool) (m : UnorderedMap K V) (kv : K × V) :
    Option (UnorderedMap K V × (Nat × Bool)) :=
  let data1 := m.data.emplace_back kv
  let it := data1.left data1.«end»
  match data1.val it with
  | none => none
  | some e =>
    match find Hash Equal { table := m.table, data := data1 } e.1 with
    | none => none
    | some f =>
      if f ≠ data1.«end» then
        let data2 := data1.pop_back
        some ({ table := m.table, data := data2 }, (data2.«end», false))
      else
        match direct_adress Hash e.1 m.table.length with
        | none => none
        | some d =>
          match m.table[d]? with
          | none => none
          | some chain =>
            match fix Hash { table := m.table.set d (chain ++ [it]), data := data1 } with
            | none => none
            | some m' => some (m', (it, true))

/-- Source `UnorderedMap::insert(const NodeType&)` and its overloads: `emplace`. -/
def insert (Hash : K → Nat) (Equal : K → K → Bool) (m : UnorderedMap K V) (kv : K × V) :
    Option (UnorderedMap K V × (Nat × Bool)) :=
  emplace Hash Equal m kv

/-- The statements `swap(chain[i], chain[chain.size() - 1]); chain.pop_back()`. -/
def swap_pop (chain : List Nat) (i : Nat) : Option (List Nat) :=
  match chain[i]?, chain[chain.length - 1]? with
  | some x, some y => some (((chain.set i y).set (chain.length - 1) x).dropLast)
  | _, _ => none

/-- The loop of `erase(ConstIterator)` over one chain, from index `i` on. -/
def erase_scan (Equal : K → K → Bool) (l : LinkedList K V) (key : K) (chain : List Nat) :
    List Nat → Nat → Option (List Nat)
  | [], _ => some chain
  | a :: rest, i =>
    match l.val a with
    | none => none
    | some kv => if Equal kv.1 key then swap_pop chain i
                 else erase_scan Equal l key chain rest (i + 1)

/-- Source `UnorderedMap::erase(ConstIterator)`. -/
def erase (Hash : K → Nat) (Equal : K → K → Bool) (m : UnorderedMap K V) (it : Nat) :
    Option (UnorderedMap K V) :=
  match m.data.val it with
  | none => none
  | some e =>
    match direct_adress Hash e.1 m.table.length with
    | none => none
    | some d =>
      match m.table[d]? with
      | none => none
      | some chain =>
        match erase_scan Equal m.data e.1 chain chain 0 with
        | none => none
        | some chain' => some { table := m.table.set d chain', data := m.data.erase it }

/-- Source `UnorderedMap::erase(ConstIterator from, ConstIterator to)`:
`while (from != to) erase(from++)`. -/
def erase_range (Hash : K → Nat) (Equal : K → K → Bool) :
    Nat → UnorderedMap K V → Nat → Nat → Option (UnorderedMap K V)
  | 0, _, _, _ => none
  | fuel + 1, m, it, stop =>
    if it = stop then some m
    else match erase Hash Equal m it with
      | none => none
      | some m' => erase_range Hash Equal fuel m' (m.data.right it) stop

/-- Source `UnorderedMap::insert(InputIterator from, InputIterator to)` over the
entries the input range yields. -/
def insert_range (Hash : K → Nat) (Equal : K → K → Bool) :
    UnorderedMap K V → List (K × V) → Option (UnorderedMap K V)
  | m, [] => some m
  | m, kv :: rest =>
    match emplace Hash Equal m kv with
    | none => none
    | some (m', _) => insert_range Hash Equal m' rest

/-- Source `UnorderedMap::reserve`: `table.resize(sz)` keeps the chains and appends
empty ones. -/
def reserve (Hash : K → Nat) (m : UnorderedMap K V) (sz : Nat) : Option (UnorderedMap K V) :=
  if m.table.length ≥ sz then some m
  else rehash Hash { table := m.table ++ List.replicate (sz - m.table.length) [], data := m.data }

/-- Source `UnorderedMap::operator[]`; `dflt` is `Value()`.  The result is the new map
and the value referred to by the returned reference. -/
def index (Hash : K → Nat) (Equal : K → K → Bool) (dflt : V) (m : UnorderedMap K V) (key : K) :
    Option (UnorderedMap K V × V) :=
  match find Hash Equal m key with
  | none => none
  | some it =>
    if it = m.«end» then
      match emplace Hash Equal m (key, dflt) with
      | none => none
      | some (m', r) =>
        match m'.data.val r.1 with
        | none => none
        | some e => some (m', e.2)
    else
      match m.data.val it with
      | none => none
      | some e => some (m, e.2)

/-- Entries of the map in iteration order, `begin()` to `end()`. -/
def toList (m : UnorderedMap K V) : Option (List (K × V)) := m.data.toList

end UnorderedMap

/-! ## Specification vocabulary -/

/-- The cells `p, as, q` are consecutive: each one's `right` link is the next
cell and each one's `left` link is the previous cell. -/
def Seg (L R : Nat → Nat) : Nat → List Nat → Nat → Prop
  | p, [], q => R p = q ∧ L q = p
  | p, a :: t, q => R p = a ∧ L a = p ∧ Seg L R a t q

/-- Last cell of the non-empty sequence `p :: as`. -/
def lastOf : Nat → List Nat → Nat
  | p, [] => p
  | _, a :: t => lastOf a t

/-- The memory of `l` is a circular doubly linked list through the sentinel
whose nodes are, in order, the cells `as`: the links form the cycle
`root, as, root`, the cells are distinct and allocated, exactly the cells of
`as` hold an entry, and `sz` counts them. -/
structure LinkedList.WF (l : LinkedList K V) (as : List Nat) : Prop where
  seg : Seg l.left l.right l.root as l.root
  nodup : (l.root :: as).Nodup
  lt_next : ∀ a ∈ l.root :: as, a < l.next
  live : ∀ a, (l.val a).isSome = true ↔ a ∈ as
  size : l.sz = as.length

/-- The contract on the pluggable functions: `Equal` is an equivalence relation
and keys that are `Equal` have the same `Hash`. -/
structure Lawful (Hash : K → Nat) (Equal : K → K → Bool) : Prop where
  refl : ∀ a, Equal a a = true
  symm : ∀ a b, Equal a b = true → Equal b a = true
  trans : ∀ a b c, Equal a b = true → Equal b c = true → Equal a c = true
  hash_eq : ∀ a b, Equal a b = true → Hash a = Hash b

/-- The test `Equal()(a -> first, key)` on the handle `a`. -/
def keyMatch (Equal : K → K → Bool) (l : LinkedList K V) (key : K) (a : Nat) : Bool :=
  match l.val a with
  | some kv => Equal kv.1 key
  | none => false

/-- The chains of `table` hold exactly the handles `as`, each one once and in
the chain numbered `Hash(key) % table.size()`. -/
structure Indexed (Hash : K → Nat) (l : LinkedList K V) (table : List (List Nat))
    (as : List Nat) : Prop where
  cap_pos : 0 < table.length
  perm : table.flatten.Perm as
  placed : ∀ d chain, table[d]? = some chain → ∀ a ∈ chain,
    ∃ kv, l.val a = some kv ∧ Hash kv.1 % table.length = d

/-- No two of the handles `as` refer to entries with `Equal` keys. -/
def Unique (Equal : K → K → Bool) (l : LinkedList K V) (as : List Nat) : Prop :=
  as.Pairwise (fun a b => ∀ ea eb, l.val a = some ea → l.val b = some eb →
    Equal ea.1 eb.1 = false)

/-- Representation invariant of the map, with `as` the handles of its entries
in iteration order. -/
structure Inv (Hash : K → Nat) (Equal : K → K → Bool) (m : UnorderedMap K V)
    (as : List Nat) : Prop where
  wf : m.data.WF as
  idx : Indexed Hash m.data m.table as
  uniq : Unique Equal m.data as

/-- Maps obtained from the default-constructed map by `emplace`/`insert`,
`operator[]`, `erase`, `reserve`, `insert(range)` and `erase(range)`.  A call
whose behaviour is undefined (it yields `none`) leads nowhere. -/
inductive Reachable (Hash : K → Nat) (Equal : K → K → Bool) : UnorderedMap K V → Prop
  | new : Reachable Hash Equal UnorderedMap.new
  | emplace {m m' : UnorderedMap K V} {kv : K × V} {r : Nat × Bool} :
      Reachable Hash Equal m → UnorderedMap.emplace Hash Equal m kv = some (m', r) →
      Reachable Hash Equal m'
  | index {m m' : UnorderedMap K V} {dflt : V} {key : K} {v : V} :
      Reachable Hash Equal m → UnorderedMap.index Hash Equal dflt m key = some (m', v) →
      Reachable Hash Equal m'
  | erase {m m' : UnorderedMap K V} {it : Nat} :
      Reachable Hash Equal m → UnorderedMap.erase Hash Equal m it = some m' →
      Reachable Hash Equal m'
  | reserve {m m' : UnorderedMap K V} {n : Nat} :
      Reachable Hash Equal m → UnorderedMap.reserve Hash m n = some m' →
      Reachable Hash Equal m'
  | insert_range {m m' : UnorderedMap K V} {kvs : List (K × V)} :
      Reachable Hash Equal m → UnorderedMap.insert_range Hash Equal m kvs = some m' →
      Reachable Hash Equal m'
  | erase_range {m m' : UnorderedMap K V} {fuel first last : Nat} :
      Reachable Hash Equal m →
      UnorderedMap.erase_range Hash Equal fuel m first last = some m' →
      Reachable Hash Equal m'

/-- Linear search of the store: the first handle, in iteration order, whose key
is `Equal` to `key`, and `end()` when there is none. -/
def linear_search (Equal : K → K → Bool) (l : LinkedList K V) (key : K) : Option Nat :=
  match l.handles with
  | none => none
  | some hs => some ((hs.find? (keyMatch Equal l key)).getD l.«end»)

/-- The entries a sequence of insertions leaves in the map, in the order of the
calls: an entry is kept when no entry kept before it has an `Equal` key; `acc`
holds the entries kept so far. -/
def kept (Equal : K → K → Bool) : List (K × V) → List (K × V) → List (K × V)
  | acc, [] => acc
  | acc, kv :: rest =>
    if acc.any (fun e => Equal e.1 kv.1) then kept Equal acc rest
    else kept Equal (acc ++ [kv]) rest

/-! ## Concrete instances -/

/-- A hash on strings with collisions: the length. -/
def exHash : String → Nat := String.length

/-- Equality of strings as the `Equal` function. -/
def exEqual : String → String → Bool := fun a b => decide (a = b)

/-- The map after `insert(("a",1))` on the default-constructed map. -/
def exMap1 : UnorderedMap String Nat :=
  ((UnorderedMap.insert_range exHash exEqual UnorderedMap.new [("a", 1)])).getD UnorderedMap.new

/-- The map after `insert(("a",1))`, `insert(("b",2))`. -/
def exMap2 : UnorderedMap String Nat :=
  ((UnorderedMap.insert_range exHash exEqual UnorderedMap.new [("a", 1), ("b", 2)])).getD
    UnorderedMap.new

/-- The map after `insert(("a",1))`, `insert(("b",2))`, `insert(("c",3))`. -/
def exMap3 : UnorderedMap String Nat :=
  ((UnorderedMap.insert_range exHash exEqual UnorderedMap.new
    [("a", 1), ("b", 2), ("c", 3)])).getD UnorderedMap.new

/-! ## Further operations of the program -/

namespace LinkedList

/-- Source `List::cbegin`: `root -> right`. -/
def cbegin (l : LinkedList K V) : Nat := l.right l.root

/-- Source `List::cend`: `root`. -/
def cend (l : LinkedList K V) : Nat := l.root

/-- Source `List::insert`: a new node is linked in before the node `it`. -/
def insert (l : LinkedList K V) (it : Nat) (kv : K × V) : LinkedList K V :=
  let sz1 := l.sz + 1
  let ptr_new := l.next
  let ptr_old := it
  let val1 := upd l.val ptr_new (some kv)
  let left1 := upd l.left ptr_new (l.left ptr_old)
  let right1 := upd l.right ptr_new ptr_old
  let right2 := upd right1 (left1 ptr_old) ptr_new
  let left2 := upd left1 ptr_old ptr_new
  { root := l.root, sz := sz1, val := val1, left := left2, right := right2,
    next := ptr_new + 1 }

/-- Source `List::push_back`: `insert(end(), val)`. -/
def push_back (l : LinkedList K V) (kv : K × V) : LinkedList K V :=
  l.insert l.«end» kv

/-- Source `List::List(const List& other)`: a fresh list, then `push_back(*it)`
for every `it` from `other.begin()` to `other.end()`.  The copy lives in memory
of its own. -/
def copy (other : LinkedList K V) : Option (LinkedList K V) :=
  match other.toList with
  | none => none
  | some es => some (es.foldl push_back LinkedList.new)

/-- Source `List::rbegin()`: `reverse_iterator(end())`.  A reverse iterator is
represented by the iterator it is built from. -/
def rbegin (l : LinkedList K V) : Nat := l.«end»

/-- Source `List::rend()`: `reverse_iterator(begin())`. -/
def rend (l : LinkedList K V) : Nat := l.«begin»

/-- Source `List::rbegin() const`: `const_reverse_iterator(cend())`. -/
def rbegin_const (l : LinkedList K V) : Nat := l.cend

/-- Source `List::rend() const`: `const_reverse_iterator(cend())`. -/
def rend_const (l : LinkedList K V) : Nat := l.cend

/-- Source `List::crbegin`: `const_reverse_iterator(cend())`. -/
def crbegin (l : LinkedList K V) : Nat := l.cend

/-- Source `List::crend`: `const_reverse_iterator(cbegin())`. -/
def crend (l : LinkedList K V) : Nat := l.cbegin

/-- The loop `for (r = first; r != last; ++r)` over reverse iterators,
collecting the handle of the node each `*r` refers to.  For a
`std::reverse_iterator` with base `b`, `*r` is the node before `b`
(`commonIterator::operator--` is `ptr = ptr -> left`), `++r` moves the base to
that node, and two reverse iterators are equal when their bases are. -/
def reverse_walk (l : LinkedList K V) : Nat → Nat → Nat → Option (List Nat)
  | 0, _, _ => none
  | fuel + 1, r, last =>
    if r = last then some []
    else match reverse_walk l fuel (l.left r) last with
      | none => none
      | some rest => some (l.left r :: rest)

/-- Handles visited from `rbegin()` to `rend()`. -/
def reverse_handles (l : LinkedList K V) : Option (List Nat) :=
  l.reverse_walk l.next l.rbegin l.rend

/-- Handles visited from `rbegin() const` to `rend() const`. -/
def reverse_handles_const (l : LinkedList K V) : Option (List Nat) :=
  l.reverse_walk l.next l.rbegin_const l.rend_const

/-- Handles visited from `crbegin()` to `crend()`. -/
def creverse_handles (l : LinkedList K V) : Option (List Nat) :=
  l.reverse_walk l.next l.crbegin l.crend

end LinkedList

/-- Outcome of `UnorderedMap::at`: the value referred to by the returned
reference, or the exception `std::out_of_range`. -/
inductive AtResult (V : Type) where
  | value : V → AtResult V
  | out_of_range : AtResult V

namespace UnorderedMap

/-- Source `UnorderedMap::at`.  The result is the map after the call and the
outcome. -/
def «at» (Hash : K → Nat) (Equal : K → K → Bool) (m : UnorderedMap K V) (key : K) :
    Option (UnorderedMap K V × AtResult V) :=
  match find Hash Equal m key with
  | none => none
  | some it =>
    if it = m.«end» then some (m, AtResult.out_of_range)
    else match m.data.val it with
      | none => none
      | some e => some (m, AtResult.value e.2)

/-- Source `UnorderedMap::UnorderedMap(const UnorderedMap& other)`:
`data(other.data)`, `table` default-constructed (no chains), then `rehash()`. -/
def copy (Hash : K → Nat) (other : UnorderedMap K V) : Option (UnorderedMap K V) :=
  match other.data.copy with
  | none => none
  | some data => rehash Hash { table := [], data := data }

/-- Source `UnorderedMap::UnorderedMap(UnorderedMap&& other)`: the new map takes
`other.table` and the nodes of `other.data`; `other` keeps an empty `table`
and, by `List::List(List&&)`, `sz = 0` and a new sentinel.  The result is the
new map and `other` after the call. -/
def move_construct (other : UnorderedMap K V) : UnorderedMap K V × UnorderedMap K V :=
  let mem := other.data.makeEnd
  ({ table := other.table,
     data := { root := other.data.root, sz := other.data.sz, val := mem.val, left := mem.left,
               right := mem.right, next := mem.next } },
   { table := [],
     data := { root := mem.root, sz := 0, val := mem.val, left := mem.left,
               right := mem.right, next := mem.next } })

end UnorderedMap

/-! ## Further specification vocabulary -/

/-- One round of the growth loop of `rehash`: `cur_size * 2 + 1`. -/
def grow_step (x : Nat) : Nat := 2 * x + 1

/-- The load factor bound with `max_load_factor_value = 1`: the entry count is
at most the chain count. -/
def LoadBound (m : UnorderedMap K V) : Prop := m.size ≤ m.capacity

/-- Identity as a hash on natural numbers. -/
def exNatHash : Nat → Nat := fun k => k

/-- Equality of natural numbers as the `Equal` function. -/
def exNatEqual : Nat → Nat → Bool := fun a b => decide (a = b)

/-- Fifty entries with the distinct keys `0, …, 49`. -/
def exKeys50 : List (Nat × Nat) := (List.range 50).map (fun i => (i, i))

/-- The map holding `("a",1)`, `("b",2)`, `("c",3)` after `erase` of the handle
of `("a",1)`. -/
def exMap4 : UnorderedMap String Nat :=
  (UnorderedMap.erase exHash exEqual exMap3 2).getD UnorderedMap.new

/-- The map `exMap4` after `emplace("d", 4)`. -/
def exMap5 : UnorderedMap String Nat :=
  ((UnorderedMap.emplace exHash exEqual exMap4 ("d", 4)).map Prod.fst).getD UnorderedMap.new

/-! # Theorems -/

/-! ## Memory updates -/

@[simp] theorem upd_same {β : Type} (f : Nat → β) (a : Nat) (b : β) : upd f a b a = b := by
  simp [upd]

theorem upd_ne {β : Type} (f : Nat → β) {a c : Nat} (b : β) (h : c ≠ a) : upd f a b c = f c := by
  simp [upd, h]

/-! ## Segments of a doubly linked list -/

theorem lastOf_mem : ∀ (p : Nat) (as : List Nat), lastOf p as ∈ p :: as
  | p, [] => by simp [lastOf]
  | p, a :: t => by
    have := lastOf_mem a t
    simp only [lastOf]
    exact List.mem_cons_of_mem _ this

theorem lastOf_append_singleton : ∀ (p : Nat) (as : List Nat) (x : Nat), lastOf p (as ++ [x]) = x
  | p, [], x => by simp [lastOf]
  | p, a :: t, x => by
    simp only [List.cons_append, lastOf]
    exact lastOf_append_singleton a t x

theorem Seg.left_eq {L R : Nat → Nat} : ∀ {p : Nat} {as : List Nat} {q : Nat},
    Seg L R p as q → L q = lastOf p as
  | p, [], q, h => h.2
  | p, a :: t, q, h => by
    simp only [lastOf]
    exact Seg.left_eq h.2.2

theorem Seg.right_mem {L R : Nat → Nat} {p : Nat} {as : List Nat} {q : Nat}
    (h : Seg L R p as q) : R p ∈ as ++ [q] := by
  cases as with
  | nil => simp [h.1]
  | cons a t => simp [h.1]

theorem Seg.frame {L R L' R' : Nat → Nat} : ∀ {p : Nat} {as : List Nat} {q : Nat},
    Seg L R p as q → (∀ a ∈ as ++ [q], L' a = L a) → (∀ a ∈ p :: as, R' a = R a) →
    Seg L' R' p as q
  | p, [], q, h, hL, hR => by
    refine ⟨?_, ?_⟩
    · rw [hR p (by simp)]; exact h.1
    · rw [hL q (by simp)]; exact h.2
  | p, a :: t, q, h, hL, hR => by
    refine ⟨?_, ?_, ?_⟩
    · rw [hR p (by simp)]; exact h.1
    · rw [hL a (by simp)]; exact h.2.1
    · exact Seg.frame h.2.2 (fun b hb => hL b (by simp at hb ⊢; tauto))
        (fun b hb => hR b (by simp at hb ⊢; tauto))

theorem Seg.append {L R : Nat → Nat} : ∀ {p : Nat} {as : List Nat} {b : Nat} {bs : List Nat} {q : Nat},
    Seg L R p (as ++ b :: bs) q ↔ Seg L R p as b ∧ Seg L R b bs q
  | p, [], b, bs, q => by
    simp only [List.nil_append, Seg]
    tauto
  | p, a :: t, b, bs, q => by
    have ih := @Seg.append L R a t b bs q
    show (R p = a ∧ L a = p ∧ Seg L R a (t ++ b :: bs) q) ↔
      (R p = a ∧ L a = p ∧ Seg L R a t b) ∧ Seg L R b bs q
    rw [ih]
    tauto

/-- Redirecting the end of a segment to a new cell `x`. -/
theorem Seg.retarget {L R L' R' : Nat → Nat} {x : Nat} : ∀ {p : Nat} {as : List Nat} {q : Nat},
    Seg L R p as q → (p :: as).Nodup →
    (∀ a ∈ as, L' a = L a) → (∀ a ∈ p :: as, a ≠ lastOf p as → R' a = R a) →
    R' (lastOf p as) = x → L' x = lastOf p as → Seg L' R' p as x
  | p, [], q, _, _, _, _, h1, h2 => ⟨h1, h2⟩
  | p, a :: t, q, h, hnd, hL, hR, h1, h2 => by
    simp only [lastOf] at h1 h2 hR
    have hp : p ∉ a :: t := (List.nodup_cons.1 hnd).1
    refine ⟨?_, ?_, ?_⟩
    · rw [hR p (by simp) (fun e => hp (e ▸ lastOf_mem a t))]; exact h.1
    · rw [hL a (by simp)]; exact h.2.1
    · exact Seg.retarget h.2.2 (List.nodup_cons.1 hnd).2
        (fun b hb => hL b (List.mem_cons_of_mem _ hb))
        (fun b hb => hR b (List.mem_cons_of_mem _ hb)) h1 h2

/-- Unlinking the cell `p` that sits between two segments. -/
theorem Seg.bridge {L R L' R' : Nat → Nat} {p : Nat} {post : List Nat} {q : Nat} :
    ∀ {s : Nat} {pre : List Nat},
    Seg L R s pre p → Seg L R p post q → (s :: pre ++ p :: post).Nodup →
    q ∉ pre ++ p :: post →
    (∀ a, a ≠ R p → L' a = L a) → L' (R p) = L p →
    (∀ a, a ≠ L p → R' a = R a) → R' (L p) = R p →
    Seg L' R' s (pre ++ post) q
  | s, [], h1, h2, hnd, hq, hL, hL', hR, hR' => by
    have hs : L p = s := h1.2
    simp only [List.nil_append, List.cons_append, List.nodup_cons, List.mem_cons,
      not_or] at hnd hq ⊢
    cases post with
    | nil =>
      refine ⟨?_, ?_⟩
      · rw [← hs, hR']; exact h2.1
      · rw [← h2.1, hL']; exact hs
    | cons b t =>
      have hb : R p = b := h2.1
      refine ⟨?_, ?_, ?_⟩
      · rw [← hs, hR']; exact hb
      · rw [← hb, hL']; exact hs
      · refine Seg.frame h2.2.2 ?_ ?_
        · intro a ha
          apply hL
          rw [hb]
          simp only [List.mem_append, List.mem_singleton] at ha
          simp only [List.mem_cons, not_or, List.nodup_cons] at hnd hq
          rcases ha with ha | ha
          · intro e; subst e; exact hnd.2.2.1 ha
          · intro e; subst e; subst ha; exact hq.2.1 rfl
        · intro a ha
          apply hR
          rw [hs]
          simp only [List.mem_cons, not_or] at hnd
          intro e; subst e
          simp only [List.mem_cons] at ha
          rcases ha with ha | ha
          · exact hnd.1.2.1 ha
          · exact hnd.1.2.2 ha
  | s, a :: t, h1, h2, hnd, hq, hL, hL', hR, hR' => by
    have hlast : L p = lastOf a t := Seg.left_eq h1.2.2
    have hmem := Seg.right_mem h2
    simp only [List.cons_append, List.nodup_cons, List.mem_cons, List.mem_append,
      not_or] at hnd hq
    refine ⟨?_, ?_, ?_⟩
    · rw [hR s ?_]; exact h1.1
      rw [hlast]
      intro e
      have := lastOf_mem a t
      rw [← e] at this
      simp only [List.mem_cons] at this
      rcases this with h | h
      · exact hnd.1.1 h
      · exact hnd.1.2.1 h
    · rw [hL a ?_]; exact h1.2.1
      intro e
      rw [← e] at hmem
      simp only [List.mem_append, List.mem_singleton] at hmem
      rcases hmem with h | h
      · exact hnd.2.1.2.2 h
      · exact hq.1 h.symm
    · refine Seg.bridge h1.2.2 h2 ?_ ?_ hL hL' hR hR'
      · simp only [List.cons_append, List.nodup_cons, List.mem_append, List.mem_cons, not_or]
        exact ⟨⟨hnd.2.1.1, hnd.2.1.2.1, hnd.2.1.2.2⟩, hnd.2.2⟩
      · simp only [List.mem_append, List.mem_cons, not_or]
        exact ⟨hq.2.1, hq.2.2.1, hq.2.2.2⟩

/-! ## The list layer -/

theorem nodup_length_le : ∀ (n : Nat) (as : List Nat), as.Nodup → (∀ a ∈ as, a < n) →
    as.length ≤ n := by
  intro n as hnd hlt
  have h1 : as.toFinset ⊆ Finset.range n := by
    intro a ha
    simp only [List.mem_toFinset] at ha
    simpa using hlt a ha
  have h2 := Finset.card_le_card h1
  rw [List.toFinset_card_of_nodup hnd, Finset.card_range] at h2
  exact h2

theorem LinkedList.WF.length_lt {l : LinkedList K V} {as : List Nat} (h : l.WF as) :
    as.length < l.next := by
  have := nodup_length_le l.next (l.root :: as) h.nodup h.lt_next
  simpa using this

theorem LinkedList.WF.root_not_mem {l : LinkedList K V} {as : List Nat} (h : l.WF as) :
    l.root ∉ as := (List.nodup_cons.1 h.nodup).1

theorem LinkedList.WF.val_root {l : LinkedList K V} {as : List Nat} (h : l.WF as) :
    l.val l.root = none := by
  have := (h.live l.root).not.2 h.root_not_mem
  cases hv : l.val l.root with
  | none => rfl
  | some e => simp [hv] at this

theorem LinkedList.WF.val_of_mem {l : LinkedList K V} {as : List Nat} (h : l.WF as)
    {a : Nat} (ha : a ∈ as) : ∃ e, l.val a = some e := by
  have := (h.live a).2 ha
  cases hv : l.val a with
  | none => simp [hv] at this
  | some e => exact ⟨e, rfl⟩

theorem LinkedList.WF.mem_of_val {l : LinkedList K V} {as : List Nat} (h : l.WF as)
    {a : Nat} {e : K × V} (ha : l.val a = some e) : a ∈ as :=
  (h.live a).1 (by simp [ha])

theorem LinkedList.walk_seg (l : LinkedList K V) : ∀ (s : List Nat) (p fuel : Nat),
    Seg l.left l.right p s l.root → l.root ∉ s → s.length < fuel →
    l.walk fuel (l.right p) = some s
  | [], p, fuel, h, _, hf => by
    obtain ⟨f, rfl⟩ : ∃ f, fuel = f + 1 := ⟨fuel - 1, by simp at hf; omega⟩
    have : l.right p = l.root := h.1
    simp [LinkedList.walk, LinkedList.«end», this]
  | a :: t, p, fuel, h, hr, hf => by
    obtain ⟨f, rfl⟩ : ∃ f, fuel = f + 1 := ⟨fuel - 1, by simp at hf; omega⟩
    have h1 : l.right p = a := h.1
    have ha : a ≠ l.root := fun e => hr (by simp [e])
    have ih := LinkedList.walk_seg l t a f h.2.2 (fun e => hr (List.mem_cons_of_mem _ e))
      (by simp at hf; omega)
    simp [LinkedList.walk, LinkedList.«end», h1, ha, ih]

theorem LinkedList.WF.handles_eq {l : LinkedList K V} {as : List Nat} (h : l.WF as) :
    l.handles = some as :=
  LinkedList.walk_seg l as l.root l.next h.seg h.root_not_mem h.length_lt

theorem LinkedList.derefAll_eq_some (l : LinkedList K V) : ∀ (as : List Nat) (es : List (K × V)),
    l.derefAll as = some es ↔ as.map l.val = es.map some
  | [], es => by
    cases es <;> simp [LinkedList.derefAll]
  | a :: t, es => by
    have ih := LinkedList.derefAll_eq_some l t
    simp only [LinkedList.derefAll, List.map_cons]
    cases hv : l.val a with
    | none =>
      cases es <;> simp
    | some e =>
      cases hd : l.derefAll t with
      | none =>
        cases es with
        | nil => simp
        | cons e' es' =>
          simp only [List.map_cons, List.cons.injEq, Option.some.injEq]
          constructor
          · intro h'; cases h'
          · rintro ⟨_, h'⟩
            rw [← ih es'] at h'
            simp [hd] at h'
      | some kvs =>
        have := (ih kvs).1 hd
        cases es with
        | nil => simp
        | cons e' es' =>
          simp only [Option.some.injEq, List.cons.injEq, List.map_cons]
          constructor
          · rintro ⟨rfl, rfl⟩; exact ⟨rfl, this⟩
          · rintro ⟨rfl, h'⟩
            refine ⟨rfl, ?_⟩
            rw [this] at h'
            exact List.map_injective_iff.2 (Option.some_injective _) h'

theorem LinkedList.derefAll_total (l : LinkedList K V) : ∀ (as : List Nat),
    (∀ a ∈ as, ∃ e, l.val a = some e) → ∃ es, l.derefAll as = some es
  | [], _ => ⟨[], rfl⟩
  | a :: t, h => by
    obtain ⟨e, he⟩ := h a (by simp)
    obtain ⟨es, hes⟩ := LinkedList.derefAll_total l t (fun b hb => h b (List.mem_cons_of_mem _ hb))
    exact ⟨e :: es, by simp [LinkedList.derefAll, he, hes]⟩

theorem LinkedList.derefAll_congr {l l' : LinkedList K V} : ∀ (as : List Nat),
    (∀ a ∈ as, l'.val a = l.val a) → l'.derefAll as = l.derefAll as
  | [], _ => rfl
  | a :: t, h => by
    simp only [LinkedList.derefAll]
    rw [h a (by simp), LinkedList.derefAll_congr t (fun b hb => h b (List.mem_cons_of_mem _ hb))]

theorem LinkedList.derefAll_length {l : LinkedList K V} {as : List Nat} {es : List (K × V)}
    (h : l.derefAll as = some es) : es.length = as.length := by
  have := congrArg List.length ((LinkedList.derefAll_eq_some l as es).1 h)
  simpa using this.symm

theorem LinkedList.WF.toList_eq {l : LinkedList K V} {as : List Nat} (h : l.WF as) :
    l.toList = l.derefAll as := by
  simp [LinkedList.toList, h.handles_eq]

theorem LinkedList.WF_new : (LinkedList.new : LinkedList K V).WF [] where
  seg := by simp [LinkedList.new, LinkedList.makeEnd, Seg]
  nodup := by simp
  lt_next := by simp [LinkedList.new, LinkedList.makeEnd]
  live := by simp [LinkedList.new, LinkedList.makeEnd]
  size := rfl

theorem LinkedList.WF.emplace_back {l : LinkedList K V} {as : List Nat} (h : l.WF as)
    (kv : K × V) : (l.emplace_back kv).WF (as ++ [l.next]) := by
  have hx : ∀ a ∈ l.root :: as, a ≠ l.next := fun a ha e => by
    have := h.lt_next a ha; omega
  have hxr : l.root ≠ l.next := hx _ (by simp)
  have hlast : l.left l.root = lastOf l.root as := h.seg.left_eq
  have hlm := lastOf_mem l.root as
  have e1 : upd l.left l.next (l.left l.root) l.root = lastOf l.root as := by
    rw [upd_ne _ _ hxr, hlast]
  refine ⟨?_, ?_, ?_, ?_, ?_⟩
  · show Seg (upd (upd l.left l.next (l.left l.root)) l.root l.next)
      (upd (upd l.right l.next l.root) (upd l.left l.next (l.left l.root) l.root) l.next)
      l.root (as ++ [l.next]) l.root
    rw [e1, Seg.append]
    refine ⟨?_, ?_, ?_⟩
    · refine Seg.retarget h.seg h.nodup ?_ ?_ ?_ ?_
      · intro a ha
        have h1 : a ≠ l.root := fun e => h.root_not_mem (e ▸ ha)
        have h2 : a ≠ l.next := hx a (List.mem_cons_of_mem _ ha)
        rw [upd_ne _ _ h1, upd_ne _ _ h2]
      · intro a ha hne
        rw [upd_ne _ _ hne, upd_ne _ _ (hx a ha)]
      · simp
      · rw [upd_ne _ _ hxr.symm, upd_same, hlast]
    · rw [upd_ne _ _ (hx _ hlm).symm, upd_same]
    · simp
  · have := h.nodup
    simp only [List.nodup_cons, List.mem_append, List.mem_singleton, not_or] at this ⊢
    refine ⟨⟨this.1, hxr⟩, ?_⟩
    rw [List.nodup_append]
    refine ⟨this.2, by simp, ?_⟩
    intro a ha hb
    simp only [List.mem_singleton] at hb
    exact hx a (List.mem_cons_of_mem _ ha) hb
  · intro a (ha : a ∈ l.root :: (as ++ [l.next]))
    show a < l.next + 1
    simp only [List.mem_cons, List.mem_append, List.mem_singleton, List.not_mem_nil,
      or_false] at ha
    rcases ha with ha | ha | ha
    · have := h.lt_next a (by simp [ha]); omega
    · have := h.lt_next a (by simp [ha]); omega
    · omega
  · intro a
    show ((upd l.val l.next (some kv)) a).isSome = true ↔ _
    by_cases e : a = l.next
    · subst e; simp
    · rw [upd_ne _ _ e, h.live a]; simp [e]
  · show l.sz + 1 = _
    simp [h.size]

theorem LinkedList.WF.erase {l : LinkedList K V} {as : List Nat} (h : l.WF as)
    {p : Nat} (hp : p ∈ as) : (l.erase p).WF (as.erase p) := by
  obtain ⟨pre, post, rfl⟩ := List.append_of_mem hp
  have hnd := h.nodup
  have hnd' : (pre ++ p :: post).Nodup := (List.nodup_cons.1 hnd).2
  have hppre : p ∉ pre := by
    intro hm
    rw [List.nodup_append] at hnd'
    exact hnd'.2.2 hm (by simp)
  have herase : (pre ++ p :: post).erase p = pre ++ post := by
    rw [List.erase_append_right _ hppre, List.erase_cons_head]
  rw [herase]
  have hseg := Seg.append.1 h.seg
  have hL : l.left p = lastOf l.root pre := hseg.1.left_eq
  have hpL : p ≠ l.left p := by
    rw [hL]
    intro e
    have hm := lastOf_mem l.root pre
    rw [← e] at hm
    simp only [List.mem_cons] at hm
    rcases hm with hm | hm
    · exact h.root_not_mem (by simp [← hm])
    · exact hppre hm
  have hsub : ∀ a, a ∈ pre ++ post → a ∈ pre ++ p :: post := by
    intro a ha
    simp only [List.mem_append, List.mem_cons] at ha ⊢
    tauto
  refine ⟨?_, ?_, ?_, ?_, ?_⟩
  · show Seg (upd l.left (upd l.right (l.left p) (l.right p) p) (l.left p))
      (upd l.right (l.left p) (l.right p)) l.root (pre ++ post) l.root
    rw [upd_ne _ _ hpL]
    refine Seg.bridge hseg.1 hseg.2 hnd h.root_not_mem ?_ ?_ ?_ ?_
    · intro a ha; rw [upd_ne _ _ ha]
    · simp
    · intro a ha; rw [upd_ne _ _ ha]
    · simp
  · simp only [List.nodup_cons, List.mem_append, List.mem_cons, not_or] at hnd ⊢
    refine ⟨⟨hnd.1.1, hnd.1.2.2⟩, ?_⟩
    have := hnd.2
    rw [List.nodup_append] at this ⊢
    refine ⟨this.1, (List.nodup_cons.1 this.2.1).2, ?_⟩
    intro a ha hb
    exact this.2.2 ha (List.mem_cons_of_mem _ hb)
  · intro a ha
    apply h.lt_next
    simp only [List.mem_cons] at ha ⊢
    rcases ha with ha | ha
    · exact Or.inl ha
    · exact Or.inr (hsub a ha)
  · intro a
    show ((upd l.val p none) a).isSome = true ↔ _
    by_cases e : a = p
    · subst e
      simp only [upd_same, Option.isSome_none, Bool.false_eq_true, false_iff]
      intro hm
      rw [List.nodup_append] at hnd'
      simp only [List.mem_append] at hm
      rcases hm with hm | hm
      · exact hppre hm
      · exact (List.nodup_cons.1 hnd'.2.1).1 hm
    · rw [upd_ne _ _ e, h.live a]
      simp only [List.mem_append, List.mem_cons]
      tauto
  · show l.sz - 1 = _
    simp [h.size]

theorem LinkedList.erase_val (l : LinkedList K V) (p : Nat) :
    (l.erase p).val = upd l.val p none := rfl

theorem LinkedList.emplace_back_val (l : LinkedList K V) (kv : K × V) :
    (l.emplace_back kv).val = upd l.val l.next (some kv) := rfl

theorem LinkedList.emplace_back_last (l : LinkedList K V) (kv : K × V) :
    (l.emplace_back kv).left (l.emplace_back kv).«end» = l.next := by
  show upd (upd l.left l.next (l.left l.root)) l.root l.next l.root = l.next
  simp

/-! ## Chains and tables -/

theorem table_split {α : Type} : ∀ (table : List α) (d : Nat) (c : α), table[d]? = some c →
    ∃ T1 T2, table = T1 ++ c :: T2 ∧ T1.length = d ∧ ∀ c', table.set d c' = T1 ++ c' :: T2
  | [], d, c, h => by simp at h
  | x :: t, 0, c, h => by
    simp only [List.getElem?_cons_zero, Option.some.injEq] at h
    subst h
    exact ⟨[], t, rfl, rfl, fun c' => rfl⟩
  | x :: t, d + 1, c, h => by
    simp only [List.getElem?_cons_succ] at h
    obtain ⟨T1, T2, e, hl, hs⟩ := table_split t d c h
    refine ⟨x :: T1, T2, by simp [e], by simp [hl], fun c' => ?_⟩
    simp [List.set, hs c']

theorem flatten_set_perm {table : List (List Nat)} {d : Nat} {c c' : List Nat} {a : Nat}
    (h : table[d]? = some c) (hc : c'.Perm (a :: c)) :
    (table.set d c').flatten.Perm (a :: table.flatten) := by
  obtain ⟨T1, T2, e, -, hs⟩ := table_split table d c h
  rw [hs c', e]
  simp only [List.flatten_append, List.flatten_cons]
  have h1 : (T1.flatten ++ (c' ++ T2.flatten)).Perm (T1.flatten ++ ((a :: c) ++ T2.flatten)) :=
    List.Perm.append_left _ (List.Perm.append_right _ hc)
  refine h1.trans ?_
  simp only [List.cons_append]
  exact List.perm_middle

theorem flatten_set_perm_remove {table : List (List Nat)} {d : Nat} {c c' : List Nat} {a : Nat}
    (h : table[d]? = some c) (hc : c.Perm (a :: c')) :
    table.flatten.Perm (a :: (table.set d c').flatten) := by
  obtain ⟨T1, T2, e, -, hs⟩ := table_split table d c h
  rw [hs c', e]
  simp only [List.flatten_append, List.flatten_cons]
  have h1 : (T1.flatten ++ (c ++ T2.flatten)).Perm (T1.flatten ++ ((a :: c') ++ T2.flatten)) :=
    List.Perm.append_left _ (List.Perm.append_right _ hc)
  refine h1.trans ?_
  simp only [List.cons_append]
  exact List.perm_middle

theorem getElem?_set_some {α : Type} {table : List α} {d d' : Nat} {c c' : α}
    (h : (table.set d c')[d']? = some c) :
    (d' = d ∧ c = c') ∨ (d' ≠ d ∧ table[d']? = some c) := by
  rw [List.getElem?_set] at h
  by_cases e : d = d'
  · subst e
    simp only [↓reduceIte] at h
    split at h
    · left; exact ⟨rfl, by simpa using h.symm⟩
    · cases h
  · simp only [e, ↓reduceIte] at h
    right; exact ⟨fun e' => e e'.symm, h⟩

/-! ## Lookup in a chain -/

theorem find_pos_scan_spec (Equal : K → K → Bool) (l : LinkedList K V) (key : K) :
    ∀ (chain : List Nat) (i : Nat), (∀ a ∈ chain, ∃ e, l.val a = some e) →
    (∃ pre a post, chain = pre ++ a :: post ∧ (∀ b ∈ pre, keyMatch Equal l key b = false) ∧
        keyMatch Equal l key a = true ∧
        UnorderedMap.find_pos_scan Equal l key chain i = some (some (i + pre.length))) ∨
    ((∀ b ∈ chain, keyMatch Equal l key b = false) ∧
        UnorderedMap.find_pos_scan Equal l key chain i = some none)
  | [], i, _ => Or.inr ⟨by simp, rfl⟩
  | a :: t, i, h => by
    obtain ⟨e, he⟩ := h a (by simp)
    by_cases hm : Equal e.1 key = true
    · left
      refine ⟨[], a, t, rfl, by simp, by simp [keyMatch, he, hm], ?_⟩
      simp [UnorderedMap.find_pos_scan, he, hm]
    · have hm' : Equal e.1 key = false := by simpa using hm
      have hka : keyMatch Equal l key a = false := by simp [keyMatch, he, hm']
      rcases find_pos_scan_spec Equal l key t (i + 1)
        (fun b hb => h b (List.mem_cons_of_mem _ hb)) with ⟨pre, b, post, e1, h1, h2, h3⟩ | ⟨h1, h2⟩
      · left
        refine ⟨a :: pre, b, post, by simp [e1], ?_, h2, ?_⟩
        · intro c hc
          simp only [List.mem_cons] at hc
          rcases hc with hc | hc
          · subst hc; exact hka
          · exact h1 c hc
        · simp only [UnorderedMap.find_pos_scan, he, hm', Bool.false_eq_true, ↓reduceIte, h3,
            List.length_cons]
          congr 2; omega
      · right
        refine ⟨?_, ?_⟩
        · intro c hc
          simp only [List.mem_cons] at hc
          rcases hc with hc | hc
          · subst hc; exact hka
          · exact h1 c hc
        · simp [UnorderedMap.find_pos_scan, he, hm', h2]

/-- What `find` returns on a table whose chain for `key` is `chain`. -/
theorem find_chain (Hash : K → Nat) (Equal : K → K → Bool) (m : UnorderedMap K V) (key : K)
    (chain : List Nat) (hsz : m.data.sz ≠ 0) (hcap : 0 < m.table.length)
    (hc : m.table[Hash key % m.table.length]? = some chain)
    (hv : ∀ a ∈ chain, ∃ e, m.data.val a = some e) :
    (∃ pre a post, chain = pre ++ a :: post ∧
        (∀ b ∈ pre, keyMatch Equal m.data key b = false) ∧
        keyMatch Equal m.data key a = true ∧
        UnorderedMap.find Hash Equal m key = some a) ∨
    ((∀ b ∈ chain, keyMatch Equal m.data key b = false) ∧
        UnorderedMap.find Hash Equal m key = some m.data.root) := by
  have hd : UnorderedMap.direct_adress Hash key m.table.length
      = some (Hash key % m.table.length) := by
    simp [UnorderedMap.direct_adress, Nat.pos_iff_ne_zero.1 hcap]
  have hlt : Hash key % m.table.length < m.table.length := Nat.mod_lt _ hcap
  rcases find_pos_scan_spec Equal m.data key chain 0 hv with
    ⟨pre, a, post, e1, h1, h2, h3⟩ | ⟨h1, h2⟩
  · left
    refine ⟨pre, a, post, e1, h1, h2, ?_⟩
    have hget : chain[pre.length]? = some a := by
      rw [e1, List.getElem?_append_right (Nat.le_refl _)]
      simp
    simp only [UnorderedMap.find, UnorderedMap.find_pos, LinkedList.size, hsz, ↓reduceIte, hd,
      hc, h3, Nat.zero_add, Nat.ne_of_lt hlt, hget]
  · right
    refine ⟨h1, ?_⟩
    simp [UnorderedMap.find, UnorderedMap.find_pos, LinkedList.size, hsz, hd, hc, h2,
      UnorderedMap.«end», LinkedList.«end»]

theorem find_empty (Hash : K → Nat) (Equal : K → K → Bool) (m : UnorderedMap K V) (key : K)
    (hsz : m.data.sz = 0) : UnorderedMap.find Hash Equal m key = some m.data.root := by
  simp [UnorderedMap.find, UnorderedMap.find_pos, LinkedList.size, hsz, UnorderedMap.«end»,
    LinkedList.«end»]

/-! ## Consequences of the index invariant -/

theorem Indexed.chain_exists {Hash : K → Nat} {l : LinkedList K V} {table : List (List Nat)}
    {as : List Nat} (h : Indexed Hash l table as) (n : Nat) :
    ∃ chain, table[n % table.length]? = some chain :=
  ⟨_, List.getElem?_eq_getElem (Nat.mod_lt _ h.cap_pos)⟩

theorem Indexed.chain_sub {Hash : K → Nat} {l : LinkedList K V} {table : List (List Nat)}
    {as : List Nat} (h : Indexed Hash l table as) {d : Nat} {chain : List Nat}
    (hc : table[d]? = some chain) {a : Nat} (ha : a ∈ chain) : a ∈ as :=
  h.perm.subset (List.mem_flatten.2 ⟨chain, List.getElem?_mem hc, ha⟩)

theorem Indexed.mem_chain {Hash : K → Nat} {l : LinkedList K V} {table : List (List Nat)}
    {as : List Nat} (h : Indexed Hash l table as) {a : Nat} (ha : a ∈ as) {e : K × V}
    (he : l.val a = some e) :
    ∃ chain, table[Hash e.1 % table.length]? = some chain ∧ a ∈ chain := by
  have := h.perm.symm.subset ha
  obtain ⟨chain, hc, hac⟩ := List.mem_flatten.1 this
  obtain ⟨d, hd⟩ := List.mem_iff_getElem?.1 hc
  obtain ⟨e', he', hh⟩ := h.placed d chain hd a hac
  rw [he] at he'
  cases he'
  exact ⟨chain, by rw [hh]; exact hd, hac⟩

/-- With lawful `Hash` and `Equal`, an entry matching `key` lies in the chain of `key`. -/
theorem Indexed.match_in_chain {Hash : K → Nat} {Equal : K → K → Bool} {l : LinkedList K V}
    {table : List (List Nat)} {as : List Nat} (h : Indexed Hash l table as)
    (law : Lawful Hash Equal) {key : K} {a : Nat} (ha : a ∈ as)
    (hm : keyMatch Equal l key a = true) {chain : List Nat}
    (hc : table[Hash key % table.length]? = some chain) : a ∈ chain := by
  unfold keyMatch at hm
  cases he : l.val a with
  | none => simp [he] at hm
  | some e =>
    simp only [he] at hm
    obtain ⟨chain', hc', hac⟩ := h.mem_chain ha he
    rw [law.hash_eq _ _ hm, hc] at hc'
    cases hc'
    exact hac

theorem Unique.match_eq {Hash : K → Nat} {Equal : K → K → Bool} {l : LinkedList K V}
    {as : List Nat} (hu : Unique Equal l as) (law : Lawful Hash Equal) {key : K} {a b : Nat}
    (ha : a ∈ as) (hb : b ∈ as) (hma : keyMatch Equal l key a = true)
    (hmb : keyMatch Equal l key b = true) : a = b := by
  by_contra hne
  unfold keyMatch at hma hmb
  cases hea : l.val a with
  | none => simp [hea] at hma
  | some ea =>
    cases heb : l.val b with
    | none => simp [heb] at hmb
    | some eb =>
      simp only [hea] at hma
      simp only [heb] at hmb
      have hab : Equal ea.1 eb.1 = true := law.trans _ _ _ hma (law.symm _ _ hmb)
      have hba : Equal eb.1 ea.1 = true := law.symm _ _ hab
      have hsymm : Symmetric (fun a b => ∀ ea eb, l.val a = some ea → l.val b = some eb →
          Equal ea.1 eb.1 = false) := by
        intro x y hxy ey ex hy hx
        have := hxy ex ey hx hy
        cases h : Equal ey.1 ex.1 with
        | false => rfl
        | true => rw [law.symm _ _ h] at this; cases this
      have := List.Pairwise.forall hsymm hu ha hb hne ea eb hea heb
      rw [hab] at this
      cases this

/-! ## Lookup under the index invariant -/

theorem keyMatch_congr {Equal : K → K → Bool} {l l' : LinkedList K V} {a : Nat}
    (h : l'.val a = l.val a) (key : K) : keyMatch Equal l' key a = keyMatch Equal l key a := by
  simp [keyMatch, h]

theorem Indexed.transport {Hash : K → Nat} {l l' : LinkedList K V} {table : List (List Nat)}
    {as : List Nat} (h : Indexed Hash l table as) (hv : ∀ a ∈ as, l'.val a = l.val a) :
    Indexed Hash l' table as where
  cap_pos := h.cap_pos
  perm := h.perm
  placed := by
    intro d chain hc a ha
    rw [hv a (h.chain_sub hc ha)]
    exact h.placed d chain hc a ha

theorem Unique.same_entries {Equal : K → K → Bool} {l l' : LinkedList K V} {as : List Nat}
    (h : Unique Equal l as) (hv : ∀ a ∈ as, l'.val a = l.val a) : Unique Equal l' as := by
  refine List.Pairwise.imp_of_mem ?_ h
  intro a b ha hb hab ea eb hea heb
  rw [hv a ha] at hea
  rw [hv b hb] at heb
  exact hab ea eb hea heb

/-- The result of `find` on an indexed store: the handle of the entry matching
`key`, or `end()` when no entry matches. -/
theorem find_indexed {Hash : K → Nat} {Equal : K → K → Bool} {table : List (List Nat)}
    {l : LinkedList K V} {as : List Nat} (idx : Indexed Hash l table as)
    (law : Lawful Hash Equal) (hv : ∀ a ∈ as, ∃ e, l.val a = some e)
    (hsz : l.sz = 0 → as = []) (key : K) :
    (∃ a, a ∈ as ∧ keyMatch Equal l key a = true ∧
        UnorderedMap.find Hash Equal { table := table, data := l } key = some a) ∨
    ((∀ b ∈ as, keyMatch Equal l key b = false) ∧
        UnorderedMap.find Hash Equal { table := table, data := l } key = some l.root) := by
  by_cases h0 : l.sz = 0
  · right
    refine ⟨by simp [hsz h0], find_empty Hash Equal _ key h0⟩
  · obtain ⟨chain, hc⟩ := idx.chain_exists (Hash key)
    rcases find_chain Hash Equal { table := table, data := l } key chain h0 idx.cap_pos hc
      (fun a ha => hv a (idx.chain_sub hc ha)) with ⟨pre, a, post, e1, -, h2, h3⟩ | ⟨h1, h2⟩
    · left
      exact ⟨a, idx.chain_sub hc (by simp [e1]), h2, h3⟩
    · right
      refine ⟨?_, h2⟩
      intro b hb
      cases hm : keyMatch Equal l key b with
      | false => rfl
      | true => exact hm.symm.trans (h1 b (idx.match_in_chain law hb hm hc))

theorem find_inv {Hash : K → Nat} {Equal : K → K → Bool} {m : UnorderedMap K V}
    {as : List Nat} (inv : Inv Hash Equal m as) (law : Lawful Hash Equal) (key : K) :
    (∃ a, a ∈ as ∧ keyMatch Equal m.data key a = true ∧
        UnorderedMap.find Hash Equal m key = some a) ∨
    ((∀ b ∈ as, keyMatch Equal m.data key b = false) ∧
        UnorderedMap.find Hash Equal m key = some m.data.root) :=
  find_indexed inv.idx law (fun _ ha => inv.wf.val_of_mem ha)
    (fun h0 => List.length_eq_zero.1 (by rw [← inv.wf.size]; exact h0)) key

/-! ## Rebuilding the index -/

theorem grow_spec (n : Nat) : ∀ (fuel cur : Nat), 0 < fuel → n < cur + fuel →
    ∃ r, UnorderedMap.grow n fuel cur = some r ∧ n ≤ r ∧ cur ≤ r
  | 0, cur, h0, _ => absurd h0 (by omega)
  | fuel + 1, cur, _, h => by
    by_cases hc : cur < n
    · obtain ⟨r, h1, h2, h3⟩ := grow_spec n fuel (2 * cur + 1) (by omega) (by omega)
      exact ⟨r, by simp [UnorderedMap.grow, hc, h1], h2, by omega⟩
    · exact ⟨cur, by simp [UnorderedMap.grow, hc], by omega, le_refl _⟩

theorem rehash_fill_spec (Hash : K → Nat) (l : LinkedList K V) :
    ∀ (s : List Nat) (p fuel : Nat) (t : List (List Nat)),
    Seg l.left l.right p s l.root → l.root ∉ s → s.length < fuel →
    (∀ a ∈ s, ∃ e, l.val a = some e) → 0 < t.length →
    ∃ t', UnorderedMap.rehash_fill Hash l fuel (l.right p) t = some t' ∧
      t'.length = t.length ∧ t'.flatten.Perm (t.flatten ++ s) ∧
      (∀ d chain, t'[d]? = some chain → ∀ a ∈ chain,
        (∃ c0, t[d]? = some c0 ∧ a ∈ c0) ∨
        (a ∈ s ∧ ∃ e, l.val a = some e ∧ Hash e.1 % t.length = d))
  | [], p, fuel, t, h, _, hf, _, _ => by
    obtain ⟨f, rfl⟩ : ∃ f, fuel = f + 1 := ⟨fuel - 1, by simp at hf; omega⟩
    have : l.right p = l.root := h.1
    refine ⟨t, by simp [UnorderedMap.rehash_fill, LinkedList.«end», this], rfl, by simp, ?_⟩
    intro d chain hc a ha
    exact Or.inl ⟨chain, hc, ha⟩
  | a :: s, p, fuel, t, h, hr, hf, hv, ht => by
    obtain ⟨f, rfl⟩ : ∃ f, fuel = f + 1 := ⟨fuel - 1, by simp at hf; omega⟩
    have h1 : l.right p = a := h.1
    have ha : a ≠ l.root := fun e => hr (by simp [e])
    obtain ⟨e, he⟩ := hv a (by simp)
    have hd : UnorderedMap.direct_adress Hash e.1 t.length = some (Hash e.1 % t.length) := by
      simp [UnorderedMap.direct_adress, Nat.pos_iff_ne_zero.1 ht]
    obtain ⟨c, hc⟩ : ∃ c, t[Hash e.1 % t.length]? = some c :=
      ⟨_, List.getElem?_eq_getElem (Nat.mod_lt _ ht)⟩
    obtain ⟨t', h2, h3, h4, h5⟩ := rehash_fill_spec Hash l s a f
      (t.set (Hash e.1 % t.length) (c ++ [a])) h.2.2
      (fun hm => hr (List.mem_cons_of_mem _ hm)) (by simp at hf; omega)
      (fun b hb => hv b (List.mem_cons_of_mem _ hb)) (by simp [ht])
    refine ⟨t', ?_, by simpa using h3, ?_, ?_⟩
    · simp [UnorderedMap.rehash_fill, LinkedList.«end», h1, ha, he, hd, hc, h2]
    · have hp : (t.set (Hash e.1 % t.length) (c ++ [a])).flatten.Perm (a :: t.flatten) :=
        flatten_set_perm hc (List.perm_append_singleton a c)
      refine h4.trans ((List.Perm.append_right s hp).trans ?_)
      simp only [List.cons_append]
      exact List.perm_middle.symm
    · intro d chain hch b hb
      rcases h5 d chain hch b hb with ⟨c0, hc0, hb0⟩ | ⟨hbs, e', he', hh⟩
      · rcases getElem?_set_some hc0 with ⟨rfl, rfl⟩ | ⟨-, hc0'⟩
        · simp only [List.mem_append, List.mem_singleton] at hb0
          rcases hb0 with hb0 | rfl
          · exact Or.inl ⟨c, hc, hb0⟩
          · exact Or.inr ⟨by simp, e, he, rfl⟩
        · exact Or.inl ⟨c0, hc0', hb0⟩
      · exact Or.inr ⟨List.mem_cons_of_mem _ hbs, e', he', by simpa using hh⟩

theorem rehash_spec (Hash : K → Nat) {m : UnorderedMap K V} {as : List Nat}
    (wf : m.data.WF as) (hcap : 0 < m.table.length) :
    ∃ table, UnorderedMap.rehash Hash m = some { table := table, data := m.data } ∧
      Indexed Hash m.data table as ∧ m.table.length ≤ table.length ∧
      m.data.sz ≤ table.length := by
  obtain ⟨r, h1, h2, h3⟩ := grow_spec m.data.size (m.data.size + 1) m.table.length (by omega) (by omega)
  have hr : 0 < (List.replicate r ([] : List Nat)).length := by simp; omega
  obtain ⟨t', h4, h5, h6, h7⟩ := rehash_fill_spec Hash m.data as m.data.root m.data.next
    (List.replicate r []) wf.seg wf.root_not_mem wf.length_lt (fun _ ha => wf.val_of_mem ha) hr
  simp only [List.length_replicate] at h5
  refine ⟨t', ?_, ⟨by omega, by simpa using h6, ?_⟩, by omega, ?_⟩
  · simp [UnorderedMap.rehash, h1, LinkedList.«begin», h4]
  · intro d chain hc a ha
    rcases h7 d chain hc a ha with ⟨c0, hc0, ha0⟩ | ⟨-, e, he, hh⟩
    · rw [List.getElem?_replicate] at hc0
      split at hc0
      · cases hc0; simp at ha0
      · cases hc0
    · exact ⟨e, he, by rw [h5]; simpa using hh⟩
  · have : m.data.sz = m.data.size := rfl
    omega

theorem fix_spec (Hash : K → Nat) {m : UnorderedMap K V} {as : List Nat}
    (wf : m.data.WF as) (idx : Indexed Hash m.data m.table as) :
    ∃ table, UnorderedMap.fix Hash m = some { table := table, data := m.data } ∧
      Indexed Hash m.data table as ∧ m.table.length ≤ table.length ∧
      m.data.sz ≤ table.length := by
  unfold UnorderedMap.fix
  by_cases h : m.table.length < m.data.size
  · simp only [h, ↓reduceIte]
    exact rehash_spec Hash wf idx.cap_pos
  · simp only [h, ↓reduceIte]
    refine ⟨m.table, rfl, idx, le_refl _, ?_⟩
    have : m.data.sz = m.data.size := rfl
    omega

theorem reserve_spec (Hash : K → Nat) {m : UnorderedMap K V} {as : List Nat}
    (wf : m.data.WF as) (idx : Indexed Hash m.data m.table as) (n : Nat) :
    ∃ table, UnorderedMap.reserve Hash m n = some { table := table, data := m.data } ∧
      Indexed Hash m.data table as ∧ m.table.length ≤ table.length ∧ n ≤ table.length := by
  unfold UnorderedMap.reserve
  by_cases h : m.table.length ≥ n
  · simp only [h, ↓reduceIte]
    exact ⟨m.table, rfl, idx, le_refl _, h⟩
  · simp only [h, ↓reduceIte]
    have hlen : (m.table ++ List.replicate (n - m.table.length) ([] : List Nat)).length = n := by
      simp; omega
    obtain ⟨table, h1, h2, h3, -⟩ := rehash_spec Hash
      (m := { table := m.table ++ List.replicate (n - m.table.length) [], data := m.data })
      wf (by rw [hlen]; omega)
    rw [hlen] at h3
    exact ⟨table, h1, h2, by omega, h3⟩

/-! ## Removing a handle from its chain -/

theorem set_at_length {α : Type} (P : List α) (a y : α) (R : List α) :
    (P ++ a :: R).set P.length y = P ++ y :: R := by
  rw [List.set_append_right _ _ (Nat.le_refl _)]
  simp

theorem swap_pop_spec (P : List Nat) (a : Nat) (Q : List Nat) :
    ∃ c', UnorderedMap.swap_pop (P ++ a :: Q) P.length = some c' ∧
      (P ++ a :: Q).Perm (a :: c') := by
  have hget : ∀ R : List Nat, (P ++ a :: R)[P.length]? = some a := by
    intro R
    rw [List.getElem?_append_right (Nat.le_refl _)]; simp
  rcases List.eq_nil_or_concat Q with rfl | ⟨Q', y, rfl⟩
  · refine ⟨P, ?_, List.perm_append_singleton a P⟩
    have hlen : (P ++ [a]).length - 1 = P.length := by simp
    unfold UnorderedMap.swap_pop
    rw [hlen, hget]
    show some (((P ++ [a]).set P.length a).set P.length a).dropLast = some P
    rw [set_at_length, set_at_length, List.dropLast_concat]
  · rw [List.concat_eq_append]
    have hlen : (P ++ a :: (Q' ++ [y])).length - 1 = (P ++ a :: Q').length := by
      simp
    have hlast : (P ++ a :: (Q' ++ [y]))[(P ++ a :: Q').length]? = some y := by
      have : P ++ a :: (Q' ++ [y]) = (P ++ a :: Q') ++ [y] := by simp
      rw [this, List.getElem?_append_right (Nat.le_refl _)]; simp
    refine ⟨P ++ y :: Q', ?_, ?_⟩
    · unfold UnorderedMap.swap_pop
      rw [hlen, hget, hlast]
      show some (((P ++ a :: (Q' ++ [y])).set P.length y).set (P ++ a :: Q').length a).dropLast
        = some (P ++ y :: Q')
      rw [set_at_length]
      have e1 : P ++ y :: (Q' ++ [y]) = (P ++ y :: Q') ++ [y] := by simp
      have e2 : (P ++ a :: Q').length = (P ++ y :: Q').length := by simp
      rw [e1, e2, set_at_length, List.dropLast_concat]
    · have e1 : P ++ a :: (Q' ++ [y]) = (P ++ a :: Q') ++ [y] := by simp
      rw [e1]
      refine (List.perm_append_singleton y _).trans ?_
      refine (List.Perm.cons y List.perm_middle).trans ?_
      refine (List.Perm.swap a y _).trans ?_
      exact List.Perm.cons a List.perm_middle.symm

theorem erase_scan_spec (Equal : K → K → Bool) (l : LinkedList K V) (key : K)
    (chain : List Nat) : ∀ (rest : List Nat) (i : Nat), (∀ a ∈ rest, ∃ e, l.val a = some e) →
    (∃ pre a post, rest = pre ++ a :: post ∧ (∀ b ∈ pre, keyMatch Equal l key b = false) ∧
        keyMatch Equal l key a = true ∧
        UnorderedMap.erase_scan Equal l key chain rest i
          = UnorderedMap.swap_pop chain (i + pre.length)) ∨
    ((∀ b ∈ rest, keyMatch Equal l key b = false) ∧
        UnorderedMap.erase_scan Equal l key chain rest i = some chain)
  | [], i, _ => Or.inr ⟨by simp, rfl⟩
  | a :: t, i, h => by
    obtain ⟨e, he⟩ := h a (by simp)
    by_cases hm : Equal e.1 key = true
    · left
      refine ⟨[], a, t, rfl, by simp, by simp [keyMatch, he, hm], ?_⟩
      simp [UnorderedMap.erase_scan, he, hm]
    · have hm' : Equal e.1 key = false := by simpa using hm
      have hka : keyMatch Equal l key a = false := by simp [keyMatch, he, hm']
      rcases erase_scan_spec Equal l key chain t (i + 1)
        (fun b hb => h b (List.mem_cons_of_mem _ hb)) with ⟨pre, b, post, e1, h1, h2, h3⟩ | ⟨h1, h2⟩
      · left
        refine ⟨a :: pre, b, post, by simp [e1], ?_, h2, ?_⟩
        · intro c hc
          simp only [List.mem_cons] at hc
          rcases hc with hc | hc
          · subst hc; exact hka
          · exact h1 c hc
        · simp only [UnorderedMap.erase_scan, he, hm', Bool.false_eq_true, ↓reduceIte, h3,
            List.length_cons]
          congr 1; omega
      · right
        refine ⟨?_, ?_⟩
        · intro c hc
          simp only [List.mem_cons] at hc
          rcases hc with hc | hc
          · subst hc; exact hka
          · exact h1 c hc
        · simp [UnorderedMap.erase_scan, he, hm', h2]

theorem keyMatch_self {Hash : K → Nat} {Equal : K → K → Bool} (law : Lawful Hash Equal)
    {l : LinkedList K V} {a : Nat} {e : K × V} (he : l.val a = some e) :
    keyMatch Equal l e.1 a = true := by
  simp [keyMatch, he, law.refl]

/-- Effect of `erase` on the handle of a stored entry. -/
theorem erase_spec {Hash : K → Nat} {Equal : K → K → Bool} {m : UnorderedMap K V}
    {as : List Nat} (inv : Inv Hash Equal m as) (law : Lawful Hash Equal) {it : Nat}
    (hit : it ∈ as) :
    ∃ table, UnorderedMap.erase Hash Equal m it
        = some { table := table, data := m.data.erase it } ∧
      Inv Hash Equal { table := table, data := m.data.erase it } (as.erase it) ∧
      table.length = m.table.length := by
  obtain ⟨e, he⟩ := inv.wf.val_of_mem hit
  obtain ⟨chain, hc, hic⟩ := inv.idx.mem_chain hit he
  have hcap := inv.idx.cap_pos
  have hd : UnorderedMap.direct_adress Hash e.1 m.table.length
      = some (Hash e.1 % m.table.length) := by
    simp [UnorderedMap.direct_adress, Nat.pos_iff_ne_zero.1 hcap]
  have hv : ∀ a ∈ chain, ∃ e, m.data.val a = some e :=
    fun a ha => inv.wf.val_of_mem (inv.idx.chain_sub hc ha)
  have hnd : as.Nodup := (List.nodup_cons.1 inv.wf.nodup).2
  rcases erase_scan_spec Equal m.data e.1 chain chain 0 hv with
    ⟨pre, a, post, e1, -, h2, h3⟩ | ⟨h1, -⟩
  · have hac : a ∈ chain := by simp [e1]
    have hai : a = it := Unique.match_eq inv.uniq law (inv.idx.chain_sub hc hac) hit h2
      (keyMatch_self law he)
    subst hai
    obtain ⟨c', hs, hp⟩ := swap_pop_spec pre a post
    rw [Nat.zero_add] at h3
    rw [← e1] at hs hp
    have hperm : (a :: (m.table.set (Hash e.1 % m.table.length) c').flatten).Perm
        (a :: as.erase a) :=
      ((flatten_set_perm_remove hc hp).symm.trans inv.idx.perm).trans (List.perm_cons_erase hit)
    have hperm' := hperm.cons_inv
    have hmem : ∀ (d : Nat) (chain' : List Nat), (m.table.set (Hash e.1 % m.table.length) c')[d]? = some chain' →
        ∀ b ∈ chain', b ≠ a ∧ ∃ c0 : List Nat, m.table[d]? = some c0 ∧ b ∈ c0 := by
      intro d chain' hch b hb
      have hb' : b ∈ as.erase a :=
        hperm'.subset (List.mem_flatten.2 ⟨chain', List.getElem?_mem hch, hb⟩)
      refine ⟨((List.Nodup.mem_erase_iff hnd).1 hb').1, ?_⟩
      rcases getElem?_set_some hch with ⟨rfl, rfl⟩ | ⟨-, h0⟩
      · exact ⟨chain, hc, (hp.symm.subset (List.mem_cons_of_mem _ hb))⟩
      · exact ⟨chain', h0, hb⟩
    refine ⟨m.table.set (Hash e.1 % m.table.length) c', ?_, ⟨inv.wf.erase hit, ⟨?_, hperm', ?_⟩, ?_⟩,
      by simp⟩
    · simp [UnorderedMap.erase, he, hd, hc, h3, hs]
    · simpa using hcap
    · intro d chain' hch b hb
      obtain ⟨hne, c0, hc0, hb0⟩ := hmem d chain' hch b hb
      obtain ⟨kv, hkv, hh⟩ := inv.idx.placed d c0 hc0 b hb0
      refine ⟨kv, ?_, by simpa using hh⟩
      show upd m.data.val a none b = some kv
      rw [upd_ne _ _ hne]; exact hkv
    · have hsub : ∀ b ∈ as.erase a, (m.data.erase a).val b = m.data.val b := by
        intro b hb
        show upd m.data.val a none b = _
        rw [upd_ne _ _ ((List.Nodup.mem_erase_iff hnd).1 hb).1]
      exact Unique.same_entries (List.Pairwise.sublist (List.erase_sublist a as) inv.uniq) hsub
  · have := h1 it hic
    rw [keyMatch_self law he] at this
    cases this

theorem erase_some_mem {Hash : K → Nat} {Equal : K → K → Bool} {m m' : UnorderedMap K V}
    {as : List Nat} (inv : Inv Hash Equal m as) {it : Nat}
    (h : UnorderedMap.erase Hash Equal m it = some m') : it ∈ as := by
  unfold UnorderedMap.erase at h
  cases he : m.data.val it with
  | none => simp [he] at h
  | some e => exact inv.wf.mem_of_val he

/-! ## Insertion -/

theorem LinkedList.emplace_back_end (l : LinkedList K V) (kv : K × V) :
    (l.emplace_back kv).«end» = l.root := rfl

theorem LinkedList.emplace_back_left_root (l : LinkedList K V) (kv : K × V) :
    (l.emplace_back kv).left l.root = l.next := LinkedList.emplace_back_last l kv

theorem LinkedList.WF.next_not_mem {l : LinkedList K V} {as : List Nat} (h : l.WF as) :
    l.next ∉ l.root :: as := fun hm => Nat.lt_irrefl _ (h.lt_next _ hm)

theorem LinkedList.WF.val_next {l : LinkedList K V} {as : List Nat} (h : l.WF as) :
    l.val l.next = none := by
  cases hv : l.val l.next with
  | none => rfl
  | some e => exact absurd (List.mem_cons_of_mem _ (h.mem_of_val hv)) h.next_not_mem

theorem LinkedList.WF.emplace_back_val_of_mem {l : LinkedList K V} {as : List Nat}
    (h : l.WF as) (kv : K × V) {a : Nat} (ha : a ∈ as) :
    (l.emplace_back kv).val a = l.val a := by
  rw [LinkedList.emplace_back_val, upd_ne]
  intro e
  exact h.next_not_mem (e ▸ List.mem_cons_of_mem _ ha)

/-- The duplicate check of `emplace`: `find` on the store that already holds
the new node sees exactly the entries that were there before. -/
theorem emplace_find {Hash : K → Nat} {Equal : K → K → Bool} {m : UnorderedMap K V}
    {as : List Nat} (inv : Inv Hash Equal m as) (law : Lawful Hash Equal) (kv : K × V) :
    (∃ a, a ∈ as ∧ keyMatch Equal m.data kv.1 a = true ∧
        UnorderedMap.find Hash Equal { table := m.table, data := m.data.emplace_back kv } kv.1
          = some a) ∨
    ((∀ b ∈ as, keyMatch Equal m.data kv.1 b = false) ∧
        UnorderedMap.find Hash Equal { table := m.table, data := m.data.emplace_back kv } kv.1
          = some m.data.root) := by
  have hval := fun a (ha : a ∈ as) => inv.wf.emplace_back_val_of_mem kv ha
  have idx1 : Indexed Hash (m.data.emplace_back kv) m.table as := inv.idx.transport hval
  have hv : ∀ a ∈ as, ∃ e, (m.data.emplace_back kv).val a = some e := by
    intro a ha
    rw [hval a ha]
    exact inv.wf.val_of_mem ha
  have hsz : (m.data.emplace_back kv).sz = 0 → as = [] := by
    intro h
    have : m.data.sz + 1 = 0 := h
    omega
  rcases find_indexed idx1 law hv hsz kv.1 with ⟨a, ha, h1, h2⟩ | ⟨h1, h2⟩
  · left
    exact ⟨a, ha, by rw [← keyMatch_congr (hval a ha)]; exact h1, h2⟩
  · right
    refine ⟨fun b hb => ?_, h2⟩
    rw [← keyMatch_congr (hval b hb)]
    exact h1 b hb

/-- Effect of `emplace` of an entry whose key matches no stored entry. -/
theorem emplace_absent {Hash : K → Nat} {Equal : K → K → Bool} {m : UnorderedMap K V}
    {as : List Nat} (inv : Inv Hash Equal m as) (law : Lawful Hash Equal) (kv : K × V)
    (habs : ∀ b ∈ as, keyMatch Equal m.data kv.1 b = false) :
    ∃ table, UnorderedMap.emplace Hash Equal m kv
        = some ({ table := table, data := m.data.emplace_back kv }, (m.data.next, true)) ∧
      Inv Hash Equal { table := table, data := m.data.emplace_back kv } (as ++ [m.data.next]) ∧
      m.table.length ≤ table.length ∧ m.data.sz + 1 ≤ table.length := by
  have hfind : UnorderedMap.find Hash Equal
      { table := m.table, data := m.data.emplace_back kv } kv.1 = some m.data.root := by
    rcases emplace_find inv law kv with ⟨a, ha, h1, -⟩ | ⟨-, h2⟩
    · rw [habs a ha] at h1; cases h1
    · exact h2
  have hcap := inv.idx.cap_pos
  have hd : UnorderedMap.direct_adress Hash kv.1 m.table.length
      = some (Hash kv.1 % m.table.length) := by
    simp [UnorderedMap.direct_adress, Nat.pos_iff_ne_zero.1 hcap]
  obtain ⟨chain, hc⟩ := inv.idx.chain_exists (Hash kv.1)
  have wf1 := inv.wf.emplace_back kv
  have hval := fun a (ha : a ∈ as) => inv.wf.emplace_back_val_of_mem kv ha
  have hx : m.data.next ∉ as := fun h => inv.wf.next_not_mem (List.mem_cons_of_mem _ h)
  have idx1 : Indexed Hash (m.data.emplace_back kv)
      (m.table.set (Hash kv.1 % m.table.length) (chain ++ [m.data.next]))
      (as ++ [m.data.next]) := by
    refine ⟨by simpa using hcap, ?_, ?_⟩
    · refine (flatten_set_perm hc (List.perm_append_singleton _ _)).trans ?_
      exact (List.Perm.cons _ inv.idx.perm).trans (List.perm_append_singleton _ _).symm
    · intro d chain' hch b hb
      rw [List.length_set]
      rcases getElem?_set_some hch with ⟨rfl, rfl⟩ | ⟨-, h0⟩
      · simp only [List.mem_append, List.mem_singleton] at hb
        rcases hb with hb | rfl
        · rw [hval b (inv.idx.chain_sub hc hb)]
          exact inv.idx.placed _ chain hc b hb
        · exact ⟨kv, by rw [LinkedList.emplace_back_val, upd_same], rfl⟩
      · rw [hval b (inv.idx.chain_sub h0 hb)]
        exact inv.idx.placed d chain' h0 b hb
  obtain ⟨table, h1, h2, h3, h4⟩ := fix_spec Hash
    (m := { table := m.table.set (Hash kv.1 % m.table.length) (chain ++ [m.data.next]),
            data := m.data.emplace_back kv }) wf1 idx1
  refine ⟨table, ?_, ⟨wf1, h2, ?_⟩, by simpa using h3, h4⟩
  · unfold UnorderedMap.emplace
    simp only [LinkedList.emplace_back_last, LinkedList.emplace_back_left_root,
      LinkedList.emplace_back_val, upd_same, hfind,
      LinkedList.emplace_back_end, ne_eq, not_true_eq_false, ↓reduceIte, hd, hc, h1]
  · show List.Pairwise _ (as ++ [m.data.next])
    rw [List.pairwise_append]
    refine ⟨Unique.same_entries inv.uniq hval, by simp, ?_⟩
    intro a ha b hb ea eb hea heb
    simp only [List.mem_singleton] at hb
    subst hb
    rw [LinkedList.emplace_back_val, upd_same] at heb
    cases heb
    rw [hval a ha] at hea
    have := habs a ha
    simpa [keyMatch, hea] using this

/-- Effect of `emplace` of an entry whose key matches a stored entry. -/
theorem emplace_present {Hash : K → Nat} {Equal : K → K → Bool} {m : UnorderedMap K V}
    {as : List Nat} (inv : Inv Hash Equal m as) (law : Lawful Hash Equal) (kv : K × V)
    {a : Nat} (ha : a ∈ as) (hm : keyMatch Equal m.data kv.1 a = true) :
    UnorderedMap.emplace Hash Equal m kv
        = some ({ table := m.table, data := (m.data.emplace_back kv).pop_back },
                (m.data.root, false)) ∧
      Inv Hash Equal { table := m.table, data := (m.data.emplace_back kv).pop_back } as ∧
      (m.data.emplace_back kv).pop_back.val = m.data.val ∧
      (m.data.emplace_back kv).pop_back.sz = m.data.sz := by
  obtain ⟨a', ha', -, hfind⟩ : ∃ a', a' ∈ as ∧ keyMatch Equal m.data kv.1 a' = true ∧
      UnorderedMap.find Hash Equal { table := m.table, data := m.data.emplace_back kv } kv.1
        = some a' := by
    rcases emplace_find inv law kv with h | ⟨h1, -⟩
    · exact h
    · rw [h1 a ha] at hm; cases hm
  have hne : a' ≠ m.data.root := fun e => inv.wf.root_not_mem (e ▸ ha')
  have wf1 := inv.wf.emplace_back kv
  have hx : m.data.next ∉ as := fun h => inv.wf.next_not_mem (List.mem_cons_of_mem _ h)
  have hpop : (m.data.emplace_back kv).pop_back = (m.data.emplace_back kv).erase m.data.next := by
    unfold LinkedList.pop_back
    rw [LinkedList.emplace_back_last]
  have herase : (as ++ [m.data.next]).erase m.data.next = as := by
    rw [List.erase_append_right _ hx]; simp
  have wf2 : ((m.data.emplace_back kv).pop_back).WF as := by
    have := wf1.erase (p := m.data.next) (by simp)
    rw [herase] at this
    rw [hpop]; exact this
  have hvalEq : (m.data.emplace_back kv).pop_back.val = m.data.val := by
    rw [hpop, LinkedList.erase_val, LinkedList.emplace_back_val]
    funext c
    by_cases e : c = m.data.next
    · subst e; rw [upd_same, inv.wf.val_next]
    · rw [upd_ne _ _ e, upd_ne _ _ e]
  refine ⟨?_, ⟨wf2, inv.idx.transport (fun b _ => by rw [hvalEq]),
    Unique.same_entries inv.uniq (fun b _ => by rw [hvalEq])⟩, hvalEq, ?_⟩
  · unfold UnorderedMap.emplace
    simp only [LinkedList.emplace_back_last, LinkedList.emplace_back_left_root,
      LinkedList.emplace_back_val, upd_same, hfind,
      LinkedList.emplace_back_end, ne_eq, hne, not_false_eq_true, ↓reduceIte]
    rfl
  · rw [hpop]
    show m.data.sz + 1 - 1 = m.data.sz
    omega

/-- Case distinction on whether the store holds an entry matching `key`. -/
theorem match_cases (Equal : K → K → Bool) (l : LinkedList K V) (key : K) (as : List Nat) :
    (∃ a, a ∈ as ∧ keyMatch Equal l key a = true) ∨
    (∀ b ∈ as, keyMatch Equal l key b = false) := by
  by_cases h : ∃ a, a ∈ as ∧ keyMatch Equal l key a = true
  · exact Or.inl h
  · right
    intro b hb
    cases hk : keyMatch Equal l key b with
    | false => rfl
    | true => exact absurd ⟨b, hb, hk⟩ h

/-- Every `emplace` on a well-formed map returns, and keeps the invariant. -/
theorem emplace_inv {Hash : K → Nat} {Equal : K → K → Bool} {m : UnorderedMap K V}
    {as : List Nat} (inv : Inv Hash Equal m as) (law : Lawful Hash Equal) (kv : K × V) :
    ∃ m' r as', UnorderedMap.emplace Hash Equal m kv = some (m', r) ∧
      Inv Hash Equal m' as' := by
  rcases match_cases Equal m.data kv.1 as with ⟨a, ha, hm⟩ | habs
  · obtain ⟨h1, h2, -⟩ := emplace_present inv law kv ha hm
    exact ⟨_, _, as, h1, h2⟩
  · obtain ⟨table, h1, h2, -⟩ := emplace_absent inv law kv habs
    exact ⟨_, _, _, h1, h2⟩

/-! ## The invariant holds on every reachable map -/

theorem Inv_new (Hash : K → Nat) (Equal : K → K → Bool) :
    Inv Hash Equal (UnorderedMap.new : UnorderedMap K V) [] where
  wf := LinkedList.WF_new
  idx := by
    refine ⟨by simp [UnorderedMap.new], by simp [UnorderedMap.new], ?_⟩
    intro d chain hc a ha
    have : chain ∈ ([[]] : List (List Nat)) := List.getElem?_mem hc
    simp only [List.mem_singleton] at this
    subst this
    simp at ha
  uniq := List.Pairwise.nil

theorem erase_inv {Hash : K → Nat} {Equal : K → K → Bool} {m m' : UnorderedMap K V}
    {as : List Nat} (inv : Inv Hash Equal m as) (law : Lawful Hash Equal) {it : Nat}
    (h : UnorderedMap.erase Hash Equal m it = some m') :
    Inv Hash Equal m' (as.erase it) ∧ m'.data = m.data.erase it ∧ it ∈ as := by
  have hit := erase_some_mem inv h
  obtain ⟨table, h1, h2, -⟩ := erase_spec inv law hit
  rw [h1] at h
  cases h
  exact ⟨h2, rfl, hit⟩

theorem reserve_inv {Hash : K → Nat} {Equal : K → K → Bool} {m m' : UnorderedMap K V}
    {as : List Nat} (inv : Inv Hash Equal m as) {n : Nat}
    (h : UnorderedMap.reserve Hash m n = some m') :
    Inv Hash Equal m' as ∧ m'.data = m.data := by
  obtain ⟨table, h1, h2, -⟩ := reserve_spec Hash inv.wf inv.idx n
  rw [h1] at h
  cases h
  exact ⟨⟨inv.wf, h2, inv.uniq⟩, rfl⟩

theorem emplace_inv_of_eq {Hash : K → Nat} {Equal : K → K → Bool} {m m' : UnorderedMap K V}
    {as : List Nat} (inv : Inv Hash Equal m as) (law : Lawful Hash Equal) {kv : K × V}
    {r : Nat × Bool} (h : UnorderedMap.emplace Hash Equal m kv = some (m', r)) :
    ∃ as', Inv Hash Equal m' as' := by
  obtain ⟨m1, r1, as', h1, h2⟩ := emplace_inv inv law kv
  rw [h1] at h
  cases h
  exact ⟨as', h2⟩

theorem index_inv {Hash : K → Nat} {Equal : K → K → Bool} {m m' : UnorderedMap K V}
    {as : List Nat} (inv : Inv Hash Equal m as) (law : Lawful Hash Equal) {dflt : V} {key : K}
    {v : V} (h : UnorderedMap.index Hash Equal dflt m key = some (m', v)) :
    ∃ as', Inv Hash Equal m' as' := by
  unfold UnorderedMap.index at h
  cases hf : UnorderedMap.find Hash Equal m key with
  | none => simp [hf] at h
  | some it =>
    simp only [hf] at h
    by_cases hit : it = m.«end»
    · simp only [hit, ↓reduceIte] at h
      cases he : UnorderedMap.emplace Hash Equal m (key, dflt) with
      | none => simp [he] at h
      | some p =>
        obtain ⟨m1, r1⟩ := p
        simp only [he] at h
        cases hv : m1.data.val r1.1 with
        | none => simp [hv] at h
        | some e =>
          simp only [hv, Option.some.injEq, Prod.mk.injEq] at h
          obtain ⟨rfl, -⟩ := h
          exact emplace_inv_of_eq inv law he
    · simp only [hit, ↓reduceIte] at h
      cases hv : m.data.val it with
      | none => simp [hv] at h
      | some e =>
        simp only [hv, Option.some.injEq, Prod.mk.injEq] at h
        obtain ⟨rfl, -⟩ := h
        exact ⟨as, inv⟩

theorem insert_range_inv {Hash : K → Nat} {Equal : K → K → Bool} (law : Lawful Hash Equal) :
    ∀ (kvs : List (K × V)) {m m' : UnorderedMap K V} {as : List Nat},
    Inv Hash Equal m as → UnorderedMap.insert_range Hash Equal m kvs = some m' →
    ∃ as', Inv Hash Equal m' as'
  | [], m, m', as, inv, h => by
    simp only [UnorderedMap.insert_range, Option.some.injEq] at h
    subst h
    exact ⟨as, inv⟩
  | kv :: rest, m, m', as, inv, h => by
    obtain ⟨m1, r1, as1, h1, h2⟩ := emplace_inv inv law kv
    simp only [UnorderedMap.insert_range, h1] at h
    exact insert_range_inv law rest h2 h

theorem erase_range_inv {Hash : K → Nat} {Equal : K → K → Bool} (law : Lawful Hash Equal) :
    ∀ (fuel : Nat) {m m' : UnorderedMap K V} {as : List Nat} {first last : Nat},
    Inv Hash Equal m as → UnorderedMap.erase_range Hash Equal fuel m first last = some m' →
    ∃ as', Inv Hash Equal m' as'
  | 0, m, m', as, first, last, _, h => by simp [UnorderedMap.erase_range] at h
  | fuel + 1, m, m', as, first, last, inv, h => by
    unfold UnorderedMap.erase_range at h
    by_cases e : first = last
    · simp only [e, ↓reduceIte, Option.some.injEq] at h
      subst h
      exact ⟨as, inv⟩
    · simp only [e, ↓reduceIte] at h
      cases he : UnorderedMap.erase Hash Equal m first with
      | none => simp [he] at h
      | some m1 =>
        simp only [he] at h
        exact erase_range_inv law fuel (erase_inv inv law he).1 h

/-- Every reachable map satisfies the representation invariant. -/
theorem Reachable.inv {Hash : K → Nat} {Equal : K → K → Bool} (law : Lawful Hash Equal)
    {m : UnorderedMap K V} (hr : Reachable Hash Equal m) : ∃ as, Inv Hash Equal m as := by
  induction hr with
  | new => exact ⟨[], Inv_new Hash Equal⟩
  | emplace _ h ih =>
    obtain ⟨as, inv⟩ := ih
    exact emplace_inv_of_eq inv law h
  | index _ h ih =>
    obtain ⟨as, inv⟩ := ih
    exact index_inv inv law h
  | erase _ h ih =>
    obtain ⟨as, inv⟩ := ih
    exact ⟨_, (erase_inv inv law h).1⟩
  | reserve _ h ih =>
    obtain ⟨as, inv⟩ := ih
    exact ⟨_, (reserve_inv inv h).1⟩
  | insert_range _ h ih =>
    obtain ⟨as, inv⟩ := ih
    exact insert_range_inv law _ inv h
  | erase_range _ h ih =>
    obtain ⟨as, inv⟩ := ih
    exact erase_range_inv law _ inv h

/-! ## Entries and handles -/

theorem LinkedList.derefAll_mem {l : LinkedList K V} {as : List Nat} {es : List (K × V)}
    (h : l.derefAll as = some es) (e : K × V) : e ∈ es ↔ ∃ a, a ∈ as ∧ l.val a = some e := by
  have hm := (LinkedList.derefAll_eq_some l as es).1 h
  have h1 : some e ∈ es.map some ↔ e ∈ es := by
    simp
  rw [← h1, ← hm]
  simp

theorem no_match_iff {Equal : K → K → Bool} {l : LinkedList K V} {as : List Nat}
    {es : List (K × V)} (h : l.derefAll as = some es) (key : K) :
    (∀ b ∈ as, keyMatch Equal l key b = false) ↔ (∀ e ∈ es, Equal e.1 key = false) := by
  constructor
  · intro hb e he
    obtain ⟨a, ha, hv⟩ := (LinkedList.derefAll_mem h e).1 he
    have := hb a ha
    simpa [keyMatch, hv] using this
  · intro he b hb
    cases hv : l.val b with
    | none => simp [keyMatch, hv]
    | some e =>
      have := he e ((LinkedList.derefAll_mem h e).2 ⟨b, hb, hv⟩)
      simp [keyMatch, hv, this]

theorem Inv.toList {Hash : K → Nat} {Equal : K → K → Bool} {m : UnorderedMap K V}
    {as : List Nat} (inv : Inv Hash Equal m as) :
    ∃ es, m.toList = some es ∧ m.data.derefAll as = some es ∧ es.length = as.length := by
  obtain ⟨es, hes⟩ := LinkedList.derefAll_total m.data as (fun _ ha => inv.wf.val_of_mem ha)
  refine ⟨es, ?_, hes, LinkedList.derefAll_length hes⟩
  show m.data.toList = some es
  rw [inv.wf.toList_eq, hes]

theorem Inv.toList_derefAll {Hash : K → Nat} {Equal : K → K → Bool} {m : UnorderedMap K V}
    {as : List Nat} (inv : Inv Hash Equal m as) : m.toList = m.data.derefAll as :=
  inv.wf.toList_eq

/-! ## Derived facts used by the claims -/

theorem find_of_match {Hash : K → Nat} {Equal : K → K → Bool} {m : UnorderedMap K V}
    {as : List Nat} (inv : Inv Hash Equal m as) (law : Lawful Hash Equal) {key : K} {a : Nat}
    (ha : a ∈ as) (hm : keyMatch Equal m.data key a = true) :
    UnorderedMap.find Hash Equal m key = some a := by
  rcases find_inv inv law key with ⟨a', ha', hm', hf⟩ | ⟨hn, -⟩
  · rw [hf, Unique.match_eq inv.uniq law ha' ha hm' hm]
  · rw [hn a ha] at hm; cases hm

theorem find_of_no_match {Hash : K → Nat} {Equal : K → K → Bool} {m : UnorderedMap K V}
    {as : List Nat} (inv : Inv Hash Equal m as) (law : Lawful Hash Equal) {key : K}
    (hn : ∀ b ∈ as, keyMatch Equal m.data key b = false) :
    UnorderedMap.find Hash Equal m key = some m.data.root := by
  rcases find_inv inv law key with ⟨a', ha', hm', -⟩ | ⟨-, hf⟩
  · rw [hn a' ha'] at hm'; cases hm'
  · exact hf

theorem keyMatch_val {Equal : K → K → Bool} {l : LinkedList K V} {key : K} {a : Nat}
    (hm : keyMatch Equal l key a = true) : ∃ e, l.val a = some e ∧ Equal e.1 key = true := by
  unfold keyMatch at hm
  cases hv : l.val a with
  | none => simp [hv] at hm
  | some e => exact ⟨e, rfl, by simpa [hv] using hm⟩

theorem match_of_entry {Equal : K → K → Bool} {l : LinkedList K V} {as : List Nat}
    {es : List (K × V)} (h : l.derefAll as = some es) {key : K} {e : K × V} (he : e ∈ es)
    (hm : Equal e.1 key = true) : ∃ a, a ∈ as ∧ keyMatch Equal l key a = true := by
  obtain ⟨a, ha, hv⟩ := (LinkedList.derefAll_mem h e).1 he
  exact ⟨a, ha, by simp [keyMatch, hv, hm]⟩

theorem Inv.derefAll_of_toList {Hash : K → Nat} {Equal : K → K → Bool} {m : UnorderedMap K V}
    {as : List Nat} (inv : Inv Hash Equal m as) {es : List (K × V)}
    (hes : m.toList = some es) : m.data.derefAll as = some es := by
  rw [← inv.toList_derefAll]; exact hes

theorem LinkedList.derefAll_append_singleton {l : LinkedList K V} {as : List Nat}
    {es : List (K × V)} (h : l.derefAll as = some es) {x : Nat} {kv : K × V}
    (hx : l.val x = some kv) : l.derefAll (as ++ [x]) = some (es ++ [kv]) := by
  rw [LinkedList.derefAll_eq_some] at h ⊢
  simp [h, hx]

/-- Observable effect of `emplace` with a key that matches no stored entry. -/
theorem emplace_absent_obs {Hash : K → Nat} {Equal : K → K → Bool} {m : UnorderedMap K V}
    {as : List Nat} (inv : Inv Hash Equal m as) (law : Lawful Hash Equal) (kv : K × V)
    {es : List (K × V)} (hes : m.toList = some es)
    (hfresh : ∀ e ∈ es, Equal e.1 kv.1 = false) :
    ∃ m', UnorderedMap.emplace Hash Equal m kv = some (m', (m.data.next, true)) ∧
      Inv Hash Equal m' (as ++ [m.data.next]) ∧ m'.data = m.data.emplace_back kv ∧
      m'.toList = some (es ++ [kv]) ∧ m.table.length ≤ m'.table.length ∧
      m.data.sz + 1 ≤ m'.table.length := by
  have hd := inv.derefAll_of_toList hes
  obtain ⟨table, h1, h2, h3, h4⟩ := emplace_absent inv law kv ((no_match_iff hd kv.1).2 hfresh)
  refine ⟨_, h1, h2, rfl, ?_, h3, h4⟩
  rw [h2.toList_derefAll]
  refine LinkedList.derefAll_append_singleton ?_ ?_
  · rw [LinkedList.derefAll_congr as (fun a ha => inv.wf.emplace_back_val_of_mem kv ha)]
    exact hd
  · show (m.data.emplace_back kv).val m.data.next = some kv
    rw [LinkedList.emplace_back_val, upd_same]

/-- Observable effect of `emplace` with a key that matches a stored entry. -/
theorem emplace_present_obs {Hash : K → Nat} {Equal : K → K → Bool} {m : UnorderedMap K V}
    {as : List Nat} (inv : Inv Hash Equal m as) (law : Lawful Hash Equal) (kv : K × V)
    {es : List (K × V)} (hes : m.toList = some es)
    (hdup : ∃ e, e ∈ es ∧ Equal e.1 kv.1 = true) :
    ∃ m', UnorderedMap.emplace Hash Equal m kv = some (m', (m.data.root, false)) ∧
      Inv Hash Equal m' as ∧ m'.table = m.table ∧ m'.data.val = m.data.val ∧
      m'.data.sz = m.data.sz ∧ m'.data.root = m.data.root ∧ m'.toList = some es := by
  have hd := inv.derefAll_of_toList hes
  obtain ⟨e, he, hm⟩ := hdup
  obtain ⟨a, ha, hma⟩ := match_of_entry hd he hm
  obtain ⟨h1, h2, h3, h4⟩ := emplace_present inv law kv ha hma
  refine ⟨_, h1, h2, rfl, h3, h4, rfl, ?_⟩
  rw [h2.toList_derefAll, LinkedList.derefAll_congr as (fun b _ => by
    show (m.data.emplace_back kv).pop_back.val b = m.data.val b
    rw [h3])]
  exact hd

theorem any_match_iff (Equal : K → K → Bool) (es : List (K × V)) (key : K) :
    es.any (fun e => Equal e.1 key) = true ↔ ∃ e, e ∈ es ∧ Equal e.1 key = true := by
  simp [List.any_eq_true]

theorem insert_range_obs {Hash : K → Nat} {Equal : K → K → Bool} (law : Lawful Hash Equal) :
    ∀ (kvs : List (K × V)) {m : UnorderedMap K V} {as : List Nat} {es : List (K × V)},
    Inv Hash Equal m as → m.toList = some es →
    ∃ m' as', UnorderedMap.insert_range Hash Equal m kvs = some m' ∧ Inv Hash Equal m' as' ∧
      m'.toList = some (kept Equal es kvs)
  | [], m, as, es, inv, hes => ⟨m, as, rfl, inv, hes⟩
  | kv :: rest, m, as, es, inv, hes => by
    by_cases hany : es.any (fun e => Equal e.1 kv.1) = true
    · obtain ⟨m1, h1, inv1, -, -, -, -, hes1⟩ :=
        emplace_present_obs inv law kv hes ((any_match_iff Equal es kv.1).1 hany)
      obtain ⟨m', as', h2, inv', hes'⟩ := insert_range_obs law rest inv1 hes1
      refine ⟨m', as', ?_, inv', ?_⟩
      · simp only [UnorderedMap.insert_range, h1, h2]
      · simp only [kept, hany, ↓reduceIte, hes']
    · have hfresh : ∀ e ∈ es, Equal e.1 kv.1 = false := by
        intro e he
        cases h : Equal e.1 kv.1 with
        | false => rfl
        | true => exact absurd ((any_match_iff Equal es kv.1).2 ⟨e, he, h⟩) hany
      obtain ⟨m1, h1, inv1, -, hes1, -⟩ := emplace_absent_obs inv law kv hes hfresh
      obtain ⟨m', as', h2, inv', hes'⟩ := insert_range_obs law rest inv1 hes1
      refine ⟨m', as', ?_, inv', ?_⟩
      · simp only [UnorderedMap.insert_range, h1, h2]
      · simp only [kept, hany, Bool.false_eq_true, ↓reduceIte, hes']

theorem new_toList : (UnorderedMap.new : UnorderedMap K V).toList = some [] := by
  show (LinkedList.new : LinkedList K V).toList = some []
  rw [LinkedList.WF_new.toList_eq]
  rfl

theorem entries_pairwise {Equal : K → K → Bool} {l : LinkedList K V} :
    ∀ {as : List Nat} {es : List (K × V)}, l.derefAll as = some es → Unique Equal l as →
    es.Pairwise (fun e e' => Equal e.1 e'.1 = false)
  | [], es, h, _ => by
    simp only [LinkedList.derefAll, Option.some.injEq] at h
    subst h
    exact List.Pairwise.nil
  | a :: t, es, h, hu => by
    have hu' : List.Pairwise (fun a b => ∀ ea eb, l.val a = some ea → l.val b = some eb →
        Equal ea.1 eb.1 = false) (a :: t) := hu
    rw [List.pairwise_cons] at hu'
    simp only [LinkedList.derefAll] at h
    cases hv : l.val a with
    | none => simp [hv] at h
    | some e =>
      cases hd : l.derefAll t with
      | none => simp [hv, hd] at h
      | some es' =>
        simp only [hv, hd, Option.some.injEq] at h
        subst h
        rw [List.pairwise_cons]
        refine ⟨?_, entries_pairwise hd hu'.2⟩
        intro e' he'
        obtain ⟨b, hb, hvb⟩ := (LinkedList.derefAll_mem hd e').1 he'
        exact hu'.1 b hb e e' hv hvb

theorem countP_le_one_of_pairwise {Hash : K → Nat} {Equal : K → K → Bool}
    (law : Lawful Hash Equal) (key : K) :
    ∀ (es : List (K × V)), es.Pairwise (fun e e' => Equal e.1 e'.1 = false) →
    es.countP (fun e => Equal e.1 key) ≤ 1
  | [], _ => by simp
  | e :: t, h => by
    rw [List.pairwise_cons] at h
    have ih := countP_le_one_of_pairwise law key t h.2
    rw [List.countP_cons]
    by_cases he : Equal e.1 key = true
    · have h0 : t.countP (fun e => Equal e.1 key) = 0 := by
        rw [List.countP_eq_zero]
        intro e' he' hm
        have := h.1 e' he'
        rw [law.trans _ _ _ he (law.symm _ _ hm)] at this
        cases this
      simp [h0, he]
    · simp [he, ih]

theorem LinkedList.derefAll_erase {l l' : LinkedList K V} {h : Nat} :
    ∀ {as : List Nat} {es : List (K × V)}, l.derefAll as = some es → as.Nodup →
    (∀ a ∈ as, a ≠ h → l'.val a = l.val a) →
    l'.derefAll (as.erase h) = some (es.eraseIdx (as.indexOf h))
  | [], es, hd, _, _ => by
    simp only [LinkedList.derefAll, Option.some.injEq] at hd
    subst hd
    rfl
  | a :: t, es, hd, hnd, hv => by
    simp only [LinkedList.derefAll] at hd
    cases hva : l.val a with
    | none => simp [hva] at hd
    | some e =>
      cases hdt : l.derefAll t with
      | none => simp [hva, hdt] at hd
      | some es' =>
        simp only [hva, hdt, Option.some.injEq] at hd
        subst hd
        rw [List.nodup_cons] at hnd
        by_cases e1 : a = h
        · subst e1
          simp only [List.erase_cons_head, List.indexOf_cons_self, List.eraseIdx_cons_zero]
          rw [LinkedList.derefAll_congr t (fun b hb => hv b (List.mem_cons_of_mem _ hb)
            (fun e2 => hnd.1 (e2 ▸ hb)))]
          exact hdt
        · have ih := @LinkedList.derefAll_erase l l' h t es' hdt hnd.2
            (fun b hb => hv b (List.mem_cons_of_mem _ hb))
          have e2 : (a :: t).erase h = a :: t.erase h := by
            rw [List.erase_cons_tail]
            simpa using e1
          have e3 : (a :: t).indexOf h = t.indexOf h + 1 := by
            rw [List.indexOf_cons_ne _ e1]
          rw [e2, e3, List.eraseIdx_cons_succ]
          simp only [LinkedList.derefAll, hv a (by simp) e1, hva, ih]

/-! ## Facts about the concrete instances -/

theorem lawful_decide_eq {K : Type} [DecidableEq K] (Hash : K → Nat) :
    Lawful Hash (fun a b => decide (a = b)) where
  refl := by simp
  symm := by intro a b h; simp at h ⊢; exact h.symm
  trans := by intro a b c h1 h2; simp at h1 h2 ⊢; exact h1.trans h2
  hash_eq := by intro a b h; simp at h; rw [h]

theorem exLawful : Lawful exHash exEqual := lawful_decide_eq exHash

theorem exMap1_reachable : Reachable exHash exEqual exMap1 :=
  @Reachable.insert_range _ _ exHash exEqual _ _ [("a", 1)] Reachable.new rfl

theorem exMap2_reachable : Reachable exHash exEqual exMap2 :=
  @Reachable.insert_range _ _ exHash exEqual _ _ [("a", 1), ("b", 2)] Reachable.new rfl

theorem exMap3_reachable : Reachable exHash exEqual exMap3 :=
  @Reachable.insert_range _ _ exHash exEqual _ _ [("a", 1), ("b", 2), ("c", 3)] Reachable.new rfl

/-! ## Lookup -/

/-- The statement of `find` against a linear search, from the invariant. -/
theorem find_linear_inv {Hash : K → Nat} {Equal : K → K → Bool} {m : UnorderedMap K V}
    {as : List Nat} (inv : Inv Hash Equal m as) (law : Lawful Hash Equal) (k : K) :
    UnorderedMap.find Hash Equal m k = linear_search Equal m.data k ∧
    ∃ it hs es, UnorderedMap.find Hash Equal m k = some it ∧ m.data.handles = some hs ∧
      m.toList = some es ∧
      (it = m.«end» ↔ ∀ e ∈ es, Equal e.1 k = false) ∧
      (it ≠ m.«end» → it ∈ hs ∧ ∃ e, m.data.val it = some e ∧ e ∈ es ∧ Equal e.1 k = true) := by
  obtain ⟨es, hes, hd, -⟩ := inv.toList
  have hh := inv.wf.handles_eq
  rcases find_inv inv law k with ⟨a, ha, hm, hf⟩ | ⟨hn, hf⟩
  · have hne : a ≠ m.«end» := by
      intro e
      have e' : a = m.data.root := e
      exact inv.wf.root_not_mem (e' ▸ ha)
    obtain ⟨e, hv, hme⟩ := keyMatch_val hm
    have hemem : e ∈ es := (LinkedList.derefAll_mem hd e).2 ⟨a, ha, hv⟩
    refine ⟨?_, a, as, es, hf, hh, hes, ?_, fun _ => ⟨ha, e, hv, hemem, hme⟩⟩
    · rw [hf]
      unfold linear_search
      rw [hh]
      show some a = some ((as.find? (keyMatch Equal m.data k)).getD m.data.«end»)
      cases hfind : as.find? (keyMatch Equal m.data k) with
      | none =>
        rw [List.find?_eq_none] at hfind
        exact absurd hm (hfind a ha)
      | some a' =>
        have h1 := List.find?_some hfind
        have h2 := List.mem_of_find?_eq_some hfind
        simp only [Option.getD_some, Option.some.injEq]
        exact Unique.match_eq inv.uniq law ha h2 hm h1
    · constructor
      · intro h; exact absurd h hne
      · intro h
        rw [h e hemem] at hme
        cases hme
  · refine ⟨?_, m.data.root, as, es, hf, hh, hes, ?_, fun h => absurd rfl h⟩
    · rw [hf]
      unfold linear_search
      rw [hh]
      show some m.data.root = some ((as.find? (keyMatch Equal m.data k)).getD m.data.«end»)
      have : as.find? (keyMatch Equal m.data k) = none := by
        rw [List.find?_eq_none]
        intro x hx
        simp [hn x hx]
      rw [this]
      rfl
    · constructor
      · intro _; exact (no_match_iff hd k).1 hn
      · intro _; rfl

/-- C1: on every map reachable from the default-constructed map, with `Equal`
an equivalence relation consistent with `Hash`, `find(k)` returns what a linear
search of the store returns: it is `end()` exactly when no stored entry has a
key `Equal` to `k`, and otherwise it is the handle of a stored entry whose key
is `Equal` to `k`. -/
theorem find_agrees_with_linear_search {Hash : K → Nat} {Equal : K → K → Bool}
    (law : Lawful Hash Equal) {m : UnorderedMap K V} (hr : Reachable Hash Equal m) (k : K) :
    UnorderedMap.find Hash Equal m k = linear_search Equal m.data k ∧
    ∃ it hs es, UnorderedMap.find Hash Equal m k = some it ∧ m.data.handles = some hs ∧
      m.toList = some es ∧
      (it = m.«end» ↔ ∀ e ∈ es, Equal e.1 k = false) ∧
      (it ≠ m.«end» → it ∈ hs ∧ ∃ e, m.data.val it = some e ∧ e ∈ es ∧ Equal e.1 k = true) := by
  obtain ⟨as, inv⟩ := hr.inv law
  exact find_linear_inv inv law k

/-- Witness for C1: the map holding `("a",1)`, `("b",2)`, `("c",3)`, whose keys
all hash to the same chain, looked up at `"b"`. -/
theorem find_agrees_with_linear_search_witness :
    Lawful exHash exEqual ∧ Reachable exHash exEqual exMap3 ∧
    (UnorderedMap.find exHash exEqual exMap3 "b" = linear_search exEqual exMap3.data "b" ∧
    ∃ it hs es, UnorderedMap.find exHash exEqual exMap3 "b" = some it ∧
      exMap3.data.handles = some hs ∧ exMap3.toList = some es ∧
      (it = exMap3.«end» ↔ ∀ e ∈ es, exEqual e.1 "b" = false) ∧
      (it ≠ exMap3.«end» → it ∈ hs ∧
        ∃ e, exMap3.data.val it = some e ∧ e ∈ es ∧ exEqual e.1 "b" = true)) :=
  ⟨exLawful, exMap3_reachable, find_agrees_with_linear_search exLawful exMap3_reachable "b"⟩

/-! ## Insertion -/

/-- C2: on a reachable map, `emplace(k,v)` with a key that is not `Equal` to
the key of any stored entry returns `(new_handle, true)`: the handle is not
`end()`, it dereferences to `(k,v)`, the new entry is the last one of the
forward traversal and `size()` grows by exactly one. -/
theorem emplace_fresh_key {Hash : K → Nat} {Equal : K → K → Bool}
    (law : Lawful Hash Equal) {m : UnorderedMap K V} (hr : Reachable Hash Equal m)
    (kv : K × V) {es : List (K × V)} (hes : m.toList = some es)
    (hfresh : ∀ e ∈ es, Equal e.1 kv.1 = false) :
    ∃ m' it hs, UnorderedMap.emplace Hash Equal m kv = some (m', (it, true)) ∧
      it ≠ m'.«end» ∧ m'.data.val it = some kv ∧
      m.data.handles = some hs ∧ m'.data.handles = some (hs ++ [it]) ∧
      m'.toList = some (es ++ [kv]) ∧ m'.size = m.size + 1 := by
  obtain ⟨as, inv⟩ := hr.inv law
  obtain ⟨m', h1, inv', hdata, hes', -⟩ := emplace_absent_obs inv law kv hes hfresh
  refine ⟨m', m.data.next, as, h1, ?_, ?_, inv.wf.handles_eq, inv'.wf.handles_eq, hes', ?_⟩
  · intro e
    have : m'.data.root ∈ as ++ [m.data.next] := by
      have h2 : m.data.next = m'.data.root := e
      rw [← h2]; simp
    exact inv'.wf.root_not_mem this
  · rw [hdata, LinkedList.emplace_back_val, upd_same]
  · show m'.data.sz = m.data.sz + 1
    rw [hdata]; rfl

/-- Witness for C2: inserting `("c",3)` into the map holding `("a",1)`, `("b",2)`. -/
theorem emplace_fresh_key_witness :
    Lawful exHash exEqual ∧ Reachable exHash exEqual exMap2 ∧
    exMap2.toList = some [("a", 1), ("b", 2)] ∧
    (∀ e ∈ [("a", 1), ("b", 2)], exEqual e.1 ("c", 3).1 = false) ∧
    ∃ m' it hs, UnorderedMap.emplace exHash exEqual exMap2 ("c", 3) = some (m', (it, true)) ∧
      it ≠ m'.«end» ∧ m'.data.val it = some ("c", 3) ∧
      exMap2.data.handles = some hs ∧ m'.data.handles = some (hs ++ [it]) ∧
      m'.toList = some ([("a", 1), ("b", 2)] ++ [("c", 3)]) ∧ m'.size = exMap2.size + 1 :=
  ⟨exLawful, exMap2_reachable, by decide, by decide,
    emplace_fresh_key exLawful exMap2_reachable ("c", 3) (by decide) (by decide)⟩

/-- C3: on a reachable map, `emplace`/`insert` of an entry whose key is already
present returns `inserted? = false` and changes nothing: `size()`, the forward
traversal (handles and entries, so the first insertion wins), the capacity and
every chain are as before the call. -/
theorem emplace_duplicate_changes_nothing {Hash : K → Nat} {Equal : K → K → Bool}
    (law : Lawful Hash Equal) {m : UnorderedMap K V} (hr : Reachable Hash Equal m)
    (kv : K × V) {es : List (K × V)} (hes : m.toList = some es)
    (hdup : ∃ e, e ∈ es ∧ Equal e.1 kv.1 = true) :
    ∃ m' it, UnorderedMap.emplace Hash Equal m kv = some (m', (it, false)) ∧
      m'.size = m.size ∧ m'.toList = some es ∧ m'.data.handles = m.data.handles ∧
      m'.capacity = m.capacity ∧ m'.table = m.table ∧ m'.data.val = m.data.val := by
  obtain ⟨as, inv⟩ := hr.inv law
  obtain ⟨m', h1, inv', htab, hval, hsz, -, hes'⟩ := emplace_present_obs inv law kv hes hdup
  refine ⟨m', m.data.root, h1, hsz, hes', ?_, ?_, htab, hval⟩
  · rw [inv'.wf.handles_eq, inv.wf.handles_eq]
  · show m'.table.length = m.table.length
    rw [htab]

/-- Witness for C3, the scenario of the specification: after `("a",1)`,
`("b",2)` the insertion of `("a",3)` is rejected; the three insertions leave
size 2, `find("a")` has value 1 and the iteration order is `("a",1)`, `("b",2)`. -/
theorem emplace_duplicate_changes_nothing_witness :
    (Lawful exHash exEqual ∧ Reachable exHash exEqual exMap2 ∧
    exMap2.toList = some [("a", 1), ("b", 2)] ∧
    (∃ e, e ∈ [("a", 1), ("b", 2)] ∧ exEqual e.1 ("a", 3).1 = true) ∧
    ∃ m' it, UnorderedMap.emplace exHash exEqual exMap2 ("a", 3) = some (m', (it, false)) ∧
      m'.size = exMap2.size ∧ m'.toList = some [("a", 1), ("b", 2)] ∧
      m'.data.handles = exMap2.data.handles ∧
      m'.capacity = exMap2.capacity ∧ m'.table = exMap2.table ∧
      m'.data.val = exMap2.data.val) ∧
    (UnorderedMap.insert_range exHash exEqual UnorderedMap.new
        [("a", 1), ("b", 2), ("a", 3)]).map
      (fun m => (m.size, m.toList,
        (UnorderedMap.find exHash exEqual m "a").bind (fun it => m.data.val it)))
      = some (2, some [("a", 1), ("b", 2)], some ("a", 1)) :=
  ⟨⟨exLawful, exMap2_reachable, by decide, ⟨("a", 1), by decide, by decide⟩,
    emplace_duplicate_changes_nothing exLawful exMap2_reachable ("a", 3) (by decide)
      ⟨("a", 1), by decide, by decide⟩⟩, by decide⟩

/-- C4, as stated, fails: on the reachable map holding `("a",1)`, where
`find("a")` is the handle `2` of that entry, `emplace(("a",3))` returns the
handle `1`, which is `end()` and is not `find("a")`. -/
theorem emplace_duplicate_handle_counterexample :
    Reachable exHash exEqual exMap1 ∧
    UnorderedMap.find exHash exEqual exMap1 "a" = some 2 ∧
    exMap1.data.val 2 = some ("a", 1) ∧
    (UnorderedMap.emplace exHash exEqual exMap1 ("a", 3)).map Prod.snd = some (1, false) ∧
    exMap1.«end» = 1 ∧
    (UnorderedMap.emplace exHash exEqual exMap1 ("a", 3)).map (fun r => r.1.«end») = some 1 :=
  ⟨exMap1_reachable, by decide, by decide, by decide, by decide, by decide⟩

/-- C4, amended: on a reachable map, `emplace` of an entry whose key is already
present returns the `end()` marker as its handle; the entry that was there
keeps its handle and its contents, and `find(k)` returns that handle, not
`end()`, before and after the call. -/
theorem emplace_duplicate_returns_end {Hash : K → Nat} {Equal : K → K → Bool}
    (law : Lawful Hash Equal) {m : UnorderedMap K V} (hr : Reachable Hash Equal m)
    (kv : K × V) {es : List (K × V)} (hes : m.toList = some es)
    (hdup : ∃ e, e ∈ es ∧ Equal e.1 kv.1 = true) :
    ∃ m' it, UnorderedMap.emplace Hash Equal m kv = some (m', (it, false)) ∧
      it = m'.«end» ∧ it = m.«end» ∧
      ∃ h e, UnorderedMap.find Hash Equal m kv.1 = some h ∧
        UnorderedMap.find Hash Equal m' kv.1 = some h ∧ h ≠ it ∧
        m.data.val h = some e ∧ m'.data.val h = some e ∧ e ∈ es ∧ Equal e.1 kv.1 = true := by
  obtain ⟨as, inv⟩ := hr.inv law
  obtain ⟨m', h1, inv', -, hval, -, hroot, -⟩ := emplace_present_obs inv law kv hes hdup
  have hd := inv.derefAll_of_toList hes
  obtain ⟨e, he, hm⟩ := hdup
  obtain ⟨a, ha, hma⟩ := match_of_entry hd he hm
  obtain ⟨e', hv', hm'⟩ := keyMatch_val hma
  refine ⟨m', m.data.root, h1, hroot.symm, rfl, a, e', find_of_match inv law ha hma,
    find_of_match inv' law ha ?_, fun e => inv.wf.root_not_mem (e ▸ ha), hv', ?_,
    (LinkedList.derefAll_mem hd e').2 ⟨a, ha, hv'⟩, hm'⟩
  · rw [keyMatch_congr (congrFun hval a)]; exact hma
  · rw [hval]; exact hv'

/-- Witness for C4 amended: `emplace(("a",3))` on the map holding `("a",1)`, `("b",2)`. -/
theorem emplace_duplicate_returns_end_witness :
    Lawful exHash exEqual ∧ Reachable exHash exEqual exMap2 ∧
    exMap2.toList = some [("a", 1), ("b", 2)] ∧
    (∃ e, e ∈ [("a", 1), ("b", 2)] ∧ exEqual e.1 ("a", 3).1 = true) ∧
    ∃ m' it, UnorderedMap.emplace exHash exEqual exMap2 ("a", 3) = some (m', (it, false)) ∧
      it = m'.«end» ∧ it = exMap2.«end» ∧
      ∃ h e, UnorderedMap.find exHash exEqual exMap2 ("a", 3).1 = some h ∧
        UnorderedMap.find exHash exEqual m' ("a", 3).1 = some h ∧ h ≠ it ∧
        exMap2.data.val h = some e ∧ m'.data.val h = some e ∧ e ∈ [("a", 1), ("b", 2)] ∧
        exEqual e.1 ("a", 3).1 = true :=
  ⟨exLawful, exMap2_reachable, by decide, ⟨("a", 1), by decide, by decide⟩,
    emplace_duplicate_returns_end exLawful exMap2_reachable ("a", 3) (by decide)
      ⟨("a", 1), by decide, by decide⟩⟩

/-- C5: a sequence of `insert`/`emplace` calls on the default-constructed
map, with no erasure, returns, and forward iteration then yields exactly the
entries whose key was not present at the time of their call, in the order of
the calls, whatever rebuilds of the index happened on the way. -/
theorem insertion_order_preserved {Hash : K → Nat} {Equal : K → K → Bool}
    (law : Lawful Hash Equal) (kvs : List (K × V)) :
    ∃ m, UnorderedMap.insert_range Hash Equal (UnorderedMap.new : UnorderedMap K V) kvs = some m ∧
      m.toList = some (kept Equal [] kvs) := by
  obtain ⟨m, as, h1, -, h2⟩ := insert_range_obs law kvs (Inv_new Hash Equal) new_toList
  exact ⟨m, h1, h2⟩

/-- Witness for C5: five insertions, two of them of a key already present, with
two rebuilds of the index on the way (capacity 1, 3, 7). -/
theorem insertion_order_preserved_witness :
    Lawful exHash exEqual ∧
    (kept exEqual [] [("a", 1), ("b", 2), ("a", 3), ("cc", 4), ("b", 5), ("d", 6)]
      = [("a", 1), ("b", 2), ("cc", 4), ("d", 6)]) ∧
    ∃ m, UnorderedMap.insert_range exHash exEqual (UnorderedMap.new : UnorderedMap String Nat)
        [("a", 1), ("b", 2), ("a", 3), ("cc", 4), ("b", 5), ("d", 6)] = some m ∧
      m.toList = some (kept exEqual []
        [("a", 1), ("b", 2), ("a", 3), ("cc", 4), ("b", 5), ("d", 6)]) :=
  ⟨exLawful, by decide, insertion_order_preserved exLawful _⟩

/-! ## Uniqueness, round trips, erasure and size -/

/-- C6: on every map reachable from the default-constructed map by
`emplace`/`insert`, `insert(range)`, `operator[]`, `erase`, `erase(range)` and
`reserve`, with `Equal` an equivalence relation consistent with `Hash`, the
store holds, for every key `k`, at most one entry whose key is `Equal` to `k`. -/
theorem keys_unique {Hash : K → Nat} {Equal : K → K → Bool}
    (law : Lawful Hash Equal) {m : UnorderedMap K V} (hr : Reachable Hash Equal m) (k : K) :
    ∃ es, m.toList = some es ∧ es.countP (fun e => Equal e.1 k) ≤ 1 := by
  obtain ⟨as, inv⟩ := hr.inv law
  obtain ⟨es, hes, hd, -⟩ := inv.toList
  exact ⟨es, hes, countP_le_one_of_pairwise law k es (entries_pairwise hd inv.uniq)⟩

/-- Witness for C6: the map holding `("a",1)`, `("b",2)`, `("c",3)` and the key `"a"`. -/
theorem keys_unique_witness :
    Lawful exHash exEqual ∧ Reachable exHash exEqual exMap3 ∧
    ∃ es, exMap3.toList = some es ∧ es.countP (fun e => exEqual e.1 "a") ≤ 1 :=
  ⟨exLawful, exMap3_reachable, keys_unique exLawful exMap3_reachable "a"⟩

/-- C7, as stated, fails: on the reachable map holding `("a",1)`, after
`insert(("a",3))` the call `find("a")` returns the handle of the entry
`("a",1)`, which is not equal to `("a",3)`. -/
theorem insert_then_find_counterexample :
    Reachable exHash exEqual exMap1 ∧
    (UnorderedMap.insert exHash exEqual exMap1 ("a", 3)).bind
      (fun r => (UnorderedMap.find exHash exEqual r.1 "a").bind (fun it => r.1.data.val it))
      = some ("a", 1) ∧
    (("a", 1) : String × Nat) ≠ ("a", 3) :=
  ⟨exMap1_reachable, by decide, by decide⟩

/-- C7, amended: on a reachable map, after `insert((k,v))` the call `find(k)`
returns a handle different from `end()` whose entry has a key `Equal` to `k`;
that entry is `(k,v)` when the insertion took place, and when it did not it is
the entry `find(k)` returned before the call, unchanged. -/
theorem insert_then_find {Hash : K → Nat} {Equal : K → K → Bool}
    (law : Lawful Hash Equal) {m : UnorderedMap K V} (hr : Reachable Hash Equal m)
    (kv : K × V) :
    ∃ m' r it e, UnorderedMap.insert Hash Equal m kv = some (m', r) ∧
      UnorderedMap.find Hash Equal m' kv.1 = some it ∧ it ≠ m'.«end» ∧
      m'.data.val it = some e ∧ Equal e.1 kv.1 = true ∧
      (r.2 = true → e = kv) ∧
      (r.2 = false → UnorderedMap.find Hash Equal m kv.1 = some it ∧
        m.data.val it = some e) := by
  obtain ⟨as, inv⟩ := hr.inv law
  obtain ⟨es, hes, hd, -⟩ := inv.toList
  by_cases hany : ∃ e, e ∈ es ∧ Equal e.1 kv.1 = true
  · obtain ⟨m', h1, inv', -, hval, -, -, -⟩ := emplace_present_obs inv law kv hes hany
    obtain ⟨e, he, hm⟩ := hany
    obtain ⟨a, ha, hma⟩ := match_of_entry hd he hm
    obtain ⟨e', hv', hm'⟩ := keyMatch_val hma
    have hma' : keyMatch Equal m'.data kv.1 a = true := by
      rw [keyMatch_congr (congrFun hval a)]; exact hma
    refine ⟨m', (m.data.root, false), a, e', h1, find_of_match inv' law ha hma', ?_, ?_, hm',
      (fun h => by cases h), fun _ => ⟨find_of_match inv law ha hma, hv'⟩⟩
    · intro e1
      have e2 : a = m'.data.root := e1
      exact inv'.wf.root_not_mem (e2 ▸ ha)
    · rw [hval]; exact hv'
  · have hfresh : ∀ e ∈ es, Equal e.1 kv.1 = false := by
      intro e he
      cases h : Equal e.1 kv.1 with
      | false => rfl
      | true => exact absurd ⟨e, he, h⟩ hany
    obtain ⟨m', h1, inv', hdata, -, -⟩ := emplace_absent_obs inv law kv hes hfresh
    have hv : m'.data.val m.data.next = some kv := by
      rw [hdata, LinkedList.emplace_back_val, upd_same]
    have hmem : m.data.next ∈ as ++ [m.data.next] := by simp
    refine ⟨m', (m.data.next, true), m.data.next, kv, h1,
      find_of_match inv' law hmem (keyMatch_self law hv), ?_, hv, law.refl _, fun _ => rfl,
      fun h => by cases h⟩
    intro e1
    have e2 : m.data.next = m'.data.root := e1
    exact inv'.wf.root_not_mem (e2 ▸ hmem)

/-- Witness for C7 amended: `insert(("a",3))` on the map holding `("a",1)`, `("b",2)`. -/
theorem insert_then_find_witness :
    Lawful exHash exEqual ∧ Reachable exHash exEqual exMap2 ∧
    ∃ m' r it e, UnorderedMap.insert exHash exEqual exMap2 ("a", 3) = some (m', r) ∧
      UnorderedMap.find exHash exEqual m' ("a", 3).1 = some it ∧ it ≠ m'.«end» ∧
      m'.data.val it = some e ∧ exEqual e.1 ("a", 3).1 = true ∧
      (r.2 = true → e = ("a", 3)) ∧
      (r.2 = false → UnorderedMap.find exHash exEqual exMap2 ("a", 3).1 = some it ∧
        exMap2.data.val it = some e) :=
  ⟨exLawful, exMap2_reachable, insert_then_find exLawful exMap2_reachable ("a", 3)⟩

/-- Effect of `erase` on a live handle, from the invariant. -/
theorem erase_obs {Hash : K → Nat} {Equal : K → K → Bool} {m : UnorderedMap K V}
    {as : List Nat} (inv : Inv Hash Equal m as) (law : Lawful Hash Equal) {h : Nat}
    (hmem : h ∈ as) :
    ∃ m', UnorderedMap.erase Hash Equal m h = some m' ∧ Inv Hash Equal m' (as.erase h) ∧
      m'.data = m.data.erase h ∧ m'.table.length = m.table.length ∧
      (∀ a, a ≠ h → m'.data.val a = m.data.val a) ∧ m'.data.val h = none := by
  obtain ⟨table, h1, inv', hlen⟩ := erase_spec inv law hmem
  refine ⟨_, h1, inv', rfl, hlen, ?_, ?_⟩
  · intro a ha
    show upd m.data.val h none a = m.data.val a
    rw [upd_ne _ _ ha]
  · show upd m.data.val h none h = none
    rw [upd_same]

/-- C8: on a reachable map, after `erase(h)` of a live handle `h` with key `k`,
`find(k)` returns `end()`, and for every key that is not `Equal` to `k` the
call `find` returns the same handle as before the erase, referring to the same
entry. -/
theorem erase_then_find {Hash : K → Nat} {Equal : K → K → Bool}
    (law : Lawful Hash Equal) {m : UnorderedMap K V} (hr : Reachable Hash Equal m)
    {hs : List Nat} (hhs : m.data.handles = some hs) {h : Nat} (hmem : h ∈ hs)
    {e : K × V} (hv : m.data.val h = some e) :
    ∃ m', UnorderedMap.erase Hash Equal m h = some m' ∧
      UnorderedMap.find Hash Equal m' e.1 = some m'.«end» ∧
      ∀ k', Equal e.1 k' = false →
        UnorderedMap.find Hash Equal m' k' = UnorderedMap.find Hash Equal m k' ∧
        ∀ it, UnorderedMap.find Hash Equal m k' = some it →
          m'.data.val it = m.data.val it := by
  obtain ⟨as, inv⟩ := hr.inv law
  have has : hs = as := by
    have := inv.wf.handles_eq
    rw [hhs] at this
    exact Option.some.inj this
  subst has
  have hnd : hs.Nodup := (List.nodup_cons.1 inv.wf.nodup).2
  obtain ⟨m', h1, inv', hdata, -, hval, -⟩ := erase_obs inv law hmem
  have hroot : m'.data.root = m.data.root := by rw [hdata]; rfl
  have hmatch : ∀ (key : K) (b : Nat), b ∈ hs.erase h →
      keyMatch Equal m'.data key b = keyMatch Equal m.data key b := by
    intro key b hb
    exact keyMatch_congr (hval b ((List.Nodup.mem_erase_iff hnd).1 hb).1) key
  refine ⟨m', h1, ?_, ?_⟩
  · refine find_of_no_match inv' law ?_
    intro b hb
    rw [hmatch e.1 b hb]
    cases hk : keyMatch Equal m.data e.1 b with
    | false => rfl
    | true =>
      have hb' := (List.Nodup.mem_erase_iff hnd).1 hb
      exact absurd (Unique.match_eq inv.uniq law hb'.2 hmem hk (keyMatch_self law hv)) hb'.1
  · intro k' hk'
    have hh : keyMatch Equal m.data k' h = false := by simp [keyMatch, hv, hk']
    rcases find_inv inv law k' with ⟨a, ha, hm, hf⟩ | ⟨hn, hf⟩
    · have hah : a ≠ h := by
        intro e1; rw [e1, hh] at hm; cases hm
      have ha' : a ∈ hs.erase h := (List.Nodup.mem_erase_iff hnd).2 ⟨hah, ha⟩
      refine ⟨?_, ?_⟩
      · rw [hf]
        exact find_of_match inv' law ha' (by rw [hmatch k' a ha']; exact hm)
      · intro it hit
        rw [hf] at hit
        cases hit
        exact hval a hah
    · refine ⟨?_, ?_⟩
      · rw [hf, ← hroot]
        refine find_of_no_match inv' law ?_
        intro b hb
        rw [hmatch k' b hb]
        exact hn b ((List.Nodup.mem_erase_iff hnd).1 hb).2
      · intro it hit
        rw [hf] at hit
        cases hit
        refine hval _ ?_
        intro e1
        exact inv.wf.root_not_mem (e1 ▸ hmem)

/-- Witness for C8: erasing the handle `3` of `("b",2)` from the map holding
`("a",1)`, `("b",2)`, `("c",3)`. -/
theorem erase_then_find_witness :
    Lawful exHash exEqual ∧ Reachable exHash exEqual exMap3 ∧
    exMap3.data.handles = some [2, 3, 4] ∧ 3 ∈ [2, 3, 4] ∧
    exMap3.data.val 3 = some ("b", 2) ∧
    ∃ m', UnorderedMap.erase exHash exEqual exMap3 3 = some m' ∧
      UnorderedMap.find exHash exEqual m' ("b", 2).1 = some m'.«end» ∧
      ∀ k', exEqual ("b", 2).1 k' = false →
        UnorderedMap.find exHash exEqual m' k' = UnorderedMap.find exHash exEqual exMap3 k' ∧
        ∀ it, UnorderedMap.find exHash exEqual exMap3 k' = some it →
          m'.data.val it = exMap3.data.val it :=
  ⟨exLawful, exMap3_reachable, by decide, by decide, by decide,
    erase_then_find exLawful exMap3_reachable
      (by decide : exMap3.data.handles = some [2, 3, 4]) (by decide : 3 ∈ [2, 3, 4])
      (by decide : exMap3.data.val 3 = some ("b", 2))⟩

/-- C9: on a reachable map, `erase(h)` of a live handle removes exactly that
entry from the traversal: the handles and the entries visited afterwards are
those visited before with the one of `h` deleted, the others in their order and
with their values, and `size()` decreases by exactly one. -/
theorem erase_removes_one_entry {Hash : K → Nat} {Equal : K → K → Bool}
    (law : Lawful Hash Equal) {m : UnorderedMap K V} (hr : Reachable Hash Equal m)
    {hs : List Nat} (hhs : m.data.handles = some hs) {es : List (K × V)}
    (hes : m.toList = some es) {h : Nat} (hmem : h ∈ hs) :
    ∃ m', UnorderedMap.erase Hash Equal m h = some m' ∧
      m'.data.handles = some (hs.erase h) ∧
      m'.toList = some (es.eraseIdx (hs.indexOf h)) ∧
      m'.size + 1 = m.size ∧
      (∀ a ∈ hs, a ≠ h → m'.data.val a = m.data.val a) := by
  obtain ⟨as, inv⟩ := hr.inv law
  have has : hs = as := by
    have := inv.wf.handles_eq
    rw [hhs] at this
    exact Option.some.inj this
  subst has
  have hnd : hs.Nodup := (List.nodup_cons.1 inv.wf.nodup).2
  obtain ⟨m', h1, inv', hdata, -, hval, -⟩ := erase_obs inv law hmem
  refine ⟨m', h1, inv'.wf.handles_eq, ?_, ?_, fun a _ ha => hval a ha⟩
  · rw [inv'.toList_derefAll]
    exact LinkedList.derefAll_erase (inv.derefAll_of_toList hes) hnd (fun a _ ha => hval a ha)
  · show m'.data.sz + 1 = m.data.sz
    rw [hdata]
    show m.data.sz - 1 + 1 = m.data.sz
    have : 0 < m.data.sz := by
      rw [inv.wf.size]
      exact List.length_pos_of_mem hmem
    omega

/-- Witness for C9, the scenario of the specification: erasing the entry
inserted first from the map holding `("a",1)`, `("b",2)`, `("c",3)`. -/
theorem erase_removes_one_entry_witness :
    Lawful exHash exEqual ∧ Reachable exHash exEqual exMap3 ∧
    exMap3.data.handles = some [2, 3, 4] ∧
    exMap3.toList = some [("a", 1), ("b", 2), ("c", 3)] ∧ 2 ∈ [2, 3, 4] ∧
    (([("a", 1), ("b", 2), ("c", 3)] : List (String × Nat)).eraseIdx ([2, 3, 4].indexOf 2)
      = [("b", 2), ("c", 3)]) ∧
    ∃ m', UnorderedMap.erase exHash exEqual exMap3 2 = some m' ∧
      m'.data.handles = some ([2, 3, 4].erase 2) ∧
      m'.toList = some (([("a", 1), ("b", 2), ("c", 3)] : List (String × Nat)).eraseIdx
        ([2, 3, 4].indexOf 2)) ∧
      m'.size + 1 = exMap3.size ∧
      (∀ a ∈ [2, 3, 4], a ≠ 2 → m'.data.val a = exMap3.data.val a) :=
  ⟨exLawful, exMap3_reachable, by decide, by decide, by decide, by decide,
    erase_removes_one_entry exLawful exMap3_reachable
      (by decide : exMap3.data.handles = some [2, 3, 4])
      (by decide : exMap3.toList = some [("a", 1), ("b", 2), ("c", 3)])
      (by decide : 2 ∈ [2, 3, 4])⟩

/-- C10: on every map reachable from the default-constructed map by
`emplace`/`insert`, `operator[]`, `erase` and `reserve`, the counter `size()`
equals the number of entries visited by forward traversal from `begin()` to
`end()` and equals the sum of the lengths of all chains. -/
theorem size_invariant {Hash : K → Nat} {Equal : K → K → Bool}
    (law : Lawful Hash Equal) {m : UnorderedMap K V} (hr : Reachable Hash Equal m) :
    ∃ hs es, m.data.handles = some hs ∧ m.toList = some es ∧
      m.size = hs.length ∧ m.size = es.length ∧
      m.size = (m.table.map List.length).sum := by
  obtain ⟨as, inv⟩ := hr.inv law
  obtain ⟨es, hes, -, hlen⟩ := inv.toList
  refine ⟨as, es, inv.wf.handles_eq, hes, inv.wf.size, ?_, ?_⟩
  · rw [hlen]; exact inv.wf.size
  · rw [← List.length_flatten, inv.idx.perm.length_eq]
    exact inv.wf.size

/-- Witness for C10: the map holding `("a",1)`, `("b",2)`, `("c",3)`. -/
theorem size_invariant_witness :
    Lawful exHash exEqual ∧ Reachable exHash exEqual exMap3 ∧
    ∃ hs es, exMap3.data.handles = some hs ∧ exMap3.toList = some es ∧
      exMap3.size = hs.length ∧ exMap3.size = es.length ∧
      exMap3.size = (exMap3.table.map List.length).sum :=
  ⟨exLawful, exMap3_reachable, size_invariant exLawful exMap3_reachable⟩

/-! ## Capacity of the index under each operation -/

theorem rehash_fill_length (Hash : K → Nat) (l : LinkedList K V) :
    ∀ (fuel i : Nat) (t t' : List (List Nat)),
    UnorderedMap.rehash_fill Hash l fuel i t = some t' → t'.length = t.length
  | 0, i, t, t', h => by simp [UnorderedMap.rehash_fill] at h
  | fuel + 1, i, t, t', h => by
    unfold UnorderedMap.rehash_fill at h
    by_cases hi : i = l.«end»
    · simp only [hi, ↓reduceIte, Option.some.injEq] at h
      rw [← h]
    · simp only [hi, ↓reduceIte] at h
      cases hv : l.val i with
      | none => simp [hv] at h
      | some kv =>
        simp only [hv] at h
        cases hd : UnorderedMap.direct_adress Hash kv.1 t.length with
        | none => simp [hd] at h
        | some d =>
          simp only [hd] at h
          cases hc : t[d]? with
          | none => simp [hc] at h
          | some chain =>
            simp only [hc] at h
            have := rehash_fill_length Hash l fuel _ _ _ h
            simpa using this

theorem grow_iterate (n : Nat) : ∀ (fuel cur r : Nat), UnorderedMap.grow n fuel cur = some r →
    ∃ j, r = Nat.iterate grow_step j cur ∧ n ≤ r ∧ ∀ i, i < j → Nat.iterate grow_step i cur < n
  | 0, cur, r, h => by simp [UnorderedMap.grow] at h
  | fuel + 1, cur, r, h => by
    unfold UnorderedMap.grow at h
    by_cases hc : cur < n
    · simp only [hc, ↓reduceIte] at h
      obtain ⟨j, h1, h2, h3⟩ := grow_iterate n fuel (2 * cur + 1) r h
      refine ⟨j + 1, ?_, h2, ?_⟩
      · rw [h1]; rfl
      · intro i hi
        cases i with
        | zero => exact hc
        | succ i' => exact h3 i' (by omega)
    · simp only [hc, ↓reduceIte, Option.some.injEq] at h
      subst h
      exact ⟨0, rfl, by omega, fun i hi => absurd hi (by omega)⟩

theorem iterate_grow_step_le : ∀ (j c : Nat), c ≤ Nat.iterate grow_step j c
  | 0, c => Nat.le_refl _
  | j + 1, c => by
    have := iterate_grow_step_le j (grow_step c)
    have h2 : c ≤ grow_step c := by unfold grow_step; omega
    exact Nat.le_trans h2 this

theorem grow_ge {n fuel cur r : Nat} (h : UnorderedMap.grow n fuel cur = some r) :
    cur ≤ r ∧ n ≤ r := by
  obtain ⟨j, h1, h2, -⟩ := grow_iterate n fuel cur r h
  exact ⟨h1 ▸ iterate_grow_step_le j cur, h2⟩

/-- What a returning `rehash` yields: the store is untouched and the chain
count is the result of the growth loop. -/
theorem rehash_shape {Hash : K → Nat} {m m' : UnorderedMap K V}
    (h : UnorderedMap.rehash Hash m = some m') :
    m'.data = m.data ∧
    UnorderedMap.grow m.data.size (m.data.size + 1) m.table.length = some m'.table.length := by
  unfold UnorderedMap.rehash at h
  cases hg : UnorderedMap.grow m.data.size (m.data.size + 1) m.table.length with
  | none => simp [hg] at h
  | some r =>
    simp only [hg] at h
    cases hf : UnorderedMap.rehash_fill Hash m.data m.data.next m.data.«begin»
        (List.replicate r []) with
    | none => simp [hf] at h
    | some t =>
      simp only [hf, Option.some.injEq] at h
      subst h
      have := rehash_fill_length Hash m.data _ _ _ _ hf
      simp only [List.length_replicate] at this
      exact ⟨rfl, by rw [this]⟩

theorem rehash_capacity {Hash : K → Nat} {m m' : UnorderedMap K V}
    (h : UnorderedMap.rehash Hash m = some m') :
    m.table.length ≤ m'.table.length ∧ m'.data.sz ≤ m'.table.length := by
  obtain ⟨h1, h2⟩ := rehash_shape h
  have := grow_ge h2
  rw [h1]
  exact ⟨this.1, this.2⟩

theorem fix_shape {Hash : K → Nat} {m m' : UnorderedMap K V}
    (h : UnorderedMap.fix Hash m = some m') :
    (m.table.length < m.data.sz ∧ UnorderedMap.rehash Hash m = some m') ∨
    (¬ m.table.length < m.data.sz ∧ m' = m) := by
  unfold UnorderedMap.fix at h
  by_cases hc : m.table.length < m.data.size
  · simp only [hc, ↓reduceIte] at h
    exact Or.inl ⟨hc, h⟩
  · simp only [hc, ↓reduceIte, Option.some.injEq] at h
    exact Or.inr ⟨hc, h.symm⟩

theorem fix_capacity {Hash : K → Nat} {m m' : UnorderedMap K V}
    (h : UnorderedMap.fix Hash m = some m') :
    m'.data = m.data ∧ m.table.length ≤ m'.table.length ∧ m'.data.sz ≤ m'.table.length := by
  rcases fix_shape h with ⟨-, h1⟩ | ⟨hc, rfl⟩
  · exact ⟨(rehash_shape h1).1, rehash_capacity h1⟩
  · exact ⟨rfl, Nat.le_refl _, by omega⟩

/-- The two ways in which `emplace` returns. -/
theorem emplace_shape {Hash : K → Nat} {Equal : K → K → Bool} {m m' : UnorderedMap K V}
    {kv : K × V} {r : Nat × Bool} (h : UnorderedMap.emplace Hash Equal m kv = some (m', r)) :
    (r = (m.data.root, false) ∧
      m' = { table := m.table, data := (m.data.emplace_back kv).pop_back }) ∨
    (r = (m.data.next, true) ∧ ∃ d chain,
      UnorderedMap.direct_adress Hash kv.1 m.table.length = some d ∧
      m.table[d]? = some chain ∧
      UnorderedMap.fix Hash { table := m.table.set d (chain ++ [m.data.next]),
                              data := m.data.emplace_back kv } = some m') := by
  unfold UnorderedMap.emplace at h
  simp only [LinkedList.emplace_back_last, LinkedList.emplace_back_left_root,
    LinkedList.emplace_back_val, upd_same, LinkedList.emplace_back_end] at h
  cases hf : UnorderedMap.find Hash Equal
      { table := m.table, data := m.data.emplace_back kv } kv.1 with
  | none => simp [hf] at h
  | some f =>
    simp only [hf] at h
    by_cases hne : f = m.data.root
    · simp only [hne, ne_eq, not_true_eq_false, ↓reduceIte] at h
      cases hd : UnorderedMap.direct_adress Hash kv.1 m.table.length with
      | none => simp [hd] at h
      | some d =>
        simp only [hd] at h
        cases hc : m.table[d]? with
        | none => simp [hc] at h
        | some chain =>
          simp only [hc] at h
          cases hx : UnorderedMap.fix Hash
              ⟨m.table.set d (chain ++ [m.data.next]), m.data.emplace_back kv⟩ with
          | none => simp [hx] at h
          | some m1 =>
            simp only [hx, Option.some.injEq, Prod.mk.injEq] at h
            right
            exact ⟨h.2.symm, d, chain, rfl, hc, h.1 ▸ hx⟩
    · simp only [ne_eq, hne, not_false_eq_true, ↓reduceIte, Option.some.injEq,
        Prod.mk.injEq] at h
      left
      exact ⟨h.2.symm, h.1.symm⟩

theorem emplace_capacity {Hash : K → Nat} {Equal : K → K → Bool} {m m' : UnorderedMap K V}
    {kv : K × V} {r : Nat × Bool} (h : UnorderedMap.emplace Hash Equal m kv = some (m', r)) :
    m.table.length ≤ m'.table.length ∧
    (m.data.sz ≤ m.table.length → m'.data.sz ≤ m'.table.length) ∧
    (m.data.sz + 1 ≤ m.table.length →
      m'.table.length = m.table.length ∧ m'.data.sz ≤ m.data.sz + 1) := by
  rcases emplace_shape h with ⟨-, rfl⟩ | ⟨-, d, chain, -, -, hx⟩
  · have hsz : ((m.data.emplace_back kv).pop_back).sz = m.data.sz := by
      show m.data.sz + 1 - 1 = m.data.sz
      omega
    refine ⟨Nat.le_refl _, fun h0 => ?_, fun _ => ⟨rfl, ?_⟩⟩
    · show ((m.data.emplace_back kv).pop_back).sz ≤ m.table.length
      rw [hsz]; exact h0
    · show ((m.data.emplace_back kv).pop_back).sz ≤ m.data.sz + 1
      rw [hsz]; omega
  · obtain ⟨h1, h2, h3⟩ := fix_capacity hx
    simp only [List.length_set] at h2
    refine ⟨h2, fun _ => h3, fun h0 => ?_⟩
    rcases fix_shape hx with ⟨hlt, -⟩ | ⟨-, rfl⟩
    · simp only [List.length_set] at hlt
      have : (m.data.emplace_back kv).sz = m.data.sz + 1 := rfl
      omega
    · refine ⟨by simp, ?_⟩
      show m.data.sz + 1 ≤ m.data.sz + 1
      omega

theorem erase_capacity {Hash : K → Nat} {Equal : K → K → Bool} {m m' : UnorderedMap K V}
    {it : Nat} (h : UnorderedMap.erase Hash Equal m it = some m') :
    m'.table.length = m.table.length ∧ m'.data.sz = m.data.sz - 1 := by
  unfold UnorderedMap.erase at h
  cases hv : m.data.val it with
  | none => simp [hv] at h
  | some e =>
    simp only [hv] at h
    cases hd : UnorderedMap.direct_adress Hash e.1 m.table.length with
    | none => simp [hd] at h
    | some d =>
      simp only [hd] at h
      cases hc : m.table[d]? with
      | none => simp [hc] at h
      | some chain =>
        simp only [hc] at h
        cases hs : UnorderedMap.erase_scan Equal m.data e.1 chain chain 0 with
        | none => simp [hs] at h
        | some chain' =>
          simp only [hs, Option.some.injEq] at h
          subst h
          exact ⟨by simp, rfl⟩

theorem reserve_capacity {Hash : K → Nat} {m m' : UnorderedMap K V} {n : Nat}
    (h : UnorderedMap.reserve Hash m n = some m') :
    m.table.length ≤ m'.table.length ∧ n ≤ m'.table.length ∧ m'.data = m.data ∧
    (m.data.sz ≤ m.table.length → m'.data.sz ≤ m'.table.length) ∧
    (n ≤ m.table.length → m' = m) := by
  unfold UnorderedMap.reserve at h
  by_cases hc : m.table.length ≥ n
  · simp only [hc, ↓reduceIte, Option.some.injEq] at h
    subst h
    exact ⟨Nat.le_refl _, hc, rfl, fun h0 => h0, fun _ => rfl⟩
  · simp only [hc, ↓reduceIte] at h
    obtain ⟨h1, h2⟩ := rehash_capacity h
    have h3 := (rehash_shape h).1
    simp only [List.length_append, List.length_replicate] at h1
    exact ⟨by omega, by omega, h3, fun _ => h2, fun h0 => absurd h0 hc⟩

theorem index_capacity {Hash : K → Nat} {Equal : K → K → Bool} {m m' : UnorderedMap K V}
    {dflt : V} {key : K} {v : V}
    (h : UnorderedMap.index Hash Equal dflt m key = some (m', v)) :
    m.table.length ≤ m'.table.length ∧
    (m.data.sz ≤ m.table.length → m'.data.sz ≤ m'.table.length) := by
  unfold UnorderedMap.index at h
  cases hf : UnorderedMap.find Hash Equal m key with
  | none => simp [hf] at h
  | some it =>
    simp only [hf] at h
    by_cases hit : it = m.«end»
    · simp only [hit, ↓reduceIte] at h
      cases he : UnorderedMap.emplace Hash Equal m (key, dflt) with
      | none => simp [he] at h
      | some p =>
        obtain ⟨m1, r1⟩ := p
        simp only [he] at h
        cases hv : m1.data.val r1.1 with
        | none => simp [hv] at h
        | some e =>
          simp only [hv, Option.some.injEq, Prod.mk.injEq] at h
          obtain ⟨rfl, -⟩ := h
          exact ⟨(emplace_capacity he).1, (emplace_capacity he).2.1⟩
    · simp only [hit, ↓reduceIte] at h
      cases hv : m.data.val it with
      | none => simp [hv] at h
      | some e =>
        simp only [hv, Option.some.injEq, Prod.mk.injEq] at h
        obtain ⟨rfl, -⟩ := h
        exact ⟨Nat.le_refl _, fun h0 => h0⟩

theorem insert_range_capacity {Hash : K → Nat} {Equal : K → K → Bool} :
    ∀ (kvs : List (K × V)) {m m' : UnorderedMap K V},
    UnorderedMap.insert_range Hash Equal m kvs = some m' →
    m.table.length ≤ m'.table.length ∧
    (m.data.sz ≤ m.table.length → m'.data.sz ≤ m'.table.length) ∧
    (m.data.sz + kvs.length ≤ m.table.length → m'.table.length = m.table.length)
  | [], m, m', h => by
    simp only [UnorderedMap.insert_range, Option.some.injEq] at h
    subst h
    exact ⟨Nat.le_refl _, fun h0 => h0, fun _ => rfl⟩
  | kv :: rest, m, m', h => by
    unfold UnorderedMap.insert_range at h
    cases he : UnorderedMap.emplace Hash Equal m kv with
    | none => simp [he] at h
    | some p =>
      obtain ⟨m1, r1⟩ := p
      simp only [he] at h
      obtain ⟨h1, h2, h3⟩ := emplace_capacity he
      obtain ⟨g1, g2, g3⟩ := insert_range_capacity rest h
      refine ⟨Nat.le_trans h1 g1, fun h0 => g2 (h2 h0), fun h0 => ?_⟩
      simp only [List.length_cons] at h0
      obtain ⟨e1, e2⟩ := h3 (by omega)
      rw [g3 (by omega), e1]

theorem erase_range_capacity {Hash : K → Nat} {Equal : K → K → Bool} :
    ∀ (fuel : Nat) {m m' : UnorderedMap K V} {first last : Nat},
    UnorderedMap.erase_range Hash Equal fuel m first last = some m' →
    m'.table.length = m.table.length ∧ m'.data.sz ≤ m.data.sz
  | 0, m, m', first, last, h => by simp [UnorderedMap.erase_range] at h
  | fuel + 1, m, m', first, last, h => by
    unfold UnorderedMap.erase_range at h
    by_cases e : first = last
    · simp only [e, ↓reduceIte, Option.some.injEq] at h
      subst h
      exact ⟨rfl, Nat.le_refl _⟩
    · simp only [e, ↓reduceIte] at h
      cases he : UnorderedMap.erase Hash Equal m first with
      | none => simp [he] at h
      | some m1 =>
        simp only [he] at h
        obtain ⟨h1, h2⟩ := erase_capacity he
        obtain ⟨g1, g2⟩ := erase_range_capacity fuel h
        exact ⟨by rw [g1, h1], by omega⟩

/-- The load bound holds on every reachable map. -/
theorem Reachable.load {Hash : K → Nat} {Equal : K → K → Bool} {m : UnorderedMap K V}
    (hr : Reachable Hash Equal m) : m.data.sz ≤ m.table.length := by
  induction hr with
  | new => exact Nat.zero_le _
  | emplace _ h ih => exact (emplace_capacity h).2.1 ih
  | index _ h ih => exact (index_capacity h).2 ih
  | erase _ h ih =>
    obtain ⟨h1, h2⟩ := erase_capacity h
    omega
  | reserve _ h ih => exact (reserve_capacity h).2.2.2.1 ih
  | insert_range _ h ih => exact (insert_range_capacity _ h).2.1 ih
  | erase_range _ h ih =>
    obtain ⟨h1, h2⟩ := erase_range_capacity _ h
    omega

/-! ## Load factor, reservation and growth -/

theorem exNatLawful : Lawful exNatHash exNatEqual := lawful_decide_eq exNatHash

theorem exMap3_wf : exMap3.data.WF [2, 3, 4] := by
  obtain ⟨as, inv⟩ := exMap3_reachable.inv exLawful
  have h1 := inv.wf.handles_eq
  have h2 : exMap3.data.handles = some [2, 3, 4] := by decide
  rw [h2] at h1
  cases h1
  exact inv.wf

/-- `rehash` returns on every well-formed store, whatever the table is. -/
theorem rehash_total (Hash : K → Nat) {m : UnorderedMap K V} {as : List Nat}
    (wf : m.data.WF as) : ∃ m', UnorderedMap.rehash Hash m = some m' := by
  obtain ⟨r, h1, h2, -⟩ := grow_spec m.data.size (m.data.size + 1) m.table.length
    (by omega) (by omega)
  cases as with
  | nil =>
    have hb : m.data.«begin» = m.data.«end» := wf.seg.1
    have hn : 0 < m.data.next := wf.length_lt
    obtain ⟨f, hf⟩ : ∃ f, m.data.next = f + 1 := ⟨m.data.next - 1, by omega⟩
    refine ⟨{ table := List.replicate r [], data := m.data }, ?_⟩
    unfold UnorderedMap.rehash
    simp only [h1, hf, UnorderedMap.rehash_fill, hb, ↓reduceIte]
  | cons a t =>
    have hr : 0 < (List.replicate r ([] : List Nat)).length := by
      have : m.data.size = (a :: t).length := wf.size
      simp only [List.length_cons] at this
      simp only [List.length_replicate]
      omega
    obtain ⟨t', h4, -⟩ := rehash_fill_spec Hash m.data (a :: t) m.data.root m.data.next
      (List.replicate r []) wf.seg wf.root_not_mem wf.length_lt
      (fun _ ha => wf.val_of_mem ha) hr
    exact ⟨{ table := t', data := m.data }, by
      simp [UnorderedMap.rehash, h1, LinkedList.«begin», h4]⟩

/-- C11: on every map reachable from the default-constructed map by
`emplace`/`insert`, `operator[]`, `erase` and `reserve`, with
`max_load_factor_value = 1`, `size() <= capacity()` holds, and it holds after
every insertion, whether or not the insertion made the index grow. -/
theorem load_factor_bound {Hash : K → Nat} {Equal : K → K → Bool}
    (law : Lawful Hash Equal) {m : UnorderedMap K V} (hr : Reachable Hash Equal m)
    (kv : K × V) :
    LoadBound m ∧
    ∃ m' r, UnorderedMap.emplace Hash Equal m kv = some (m', r) ∧ LoadBound m' := by
  obtain ⟨as, inv⟩ := hr.inv law
  obtain ⟨m', r, as', h1, -⟩ := emplace_inv inv law kv
  exact ⟨hr.load, m', r, h1, (Reachable.emplace hr h1).load⟩

/-- Witness for C11: inserting `("b",2)` into the map holding `("a",1)`, which
makes the index grow from one chain to three. -/
theorem load_factor_bound_witness :
    Lawful exHash exEqual ∧ Reachable exHash exEqual exMap1 ∧
    (LoadBound exMap1 ∧
      ∃ m' r, UnorderedMap.emplace exHash exEqual exMap1 ("b", 2) = some (m', r) ∧
        LoadBound m') ∧
    exMap1.capacity = 1 ∧
    (UnorderedMap.emplace exHash exEqual exMap1 ("b", 2)).map
      (fun p => (p.1.size, p.1.capacity)) = some (2, 3) :=
  ⟨exLawful, exMap1_reachable, load_factor_bound exLawful exMap1_reachable ("b", 2),
    by decide, by decide⟩

theorem find_eq_of_same_store {Hash : K → Nat} {Equal : K → K → Bool}
    {m m' : UnorderedMap K V} {as : List Nat} (inv : Inv Hash Equal m as)
    (inv' : Inv Hash Equal m' as) (law : Lawful Hash Equal) (hd : m'.data = m.data) (k : K) :
    UnorderedMap.find Hash Equal m' k = UnorderedMap.find Hash Equal m k := by
  rcases match_cases Equal m.data k as with ⟨a, ha, hm⟩ | hn
  · rw [find_of_match inv law ha hm, find_of_match inv' law ha (by rw [hd]; exact hm)]
  · rw [find_of_no_match inv law hn, find_of_no_match inv' law (by rw [hd]; exact hn), hd]

/-- C12: on a reachable map, `reserve(n)` returns a map with at least `n`
chains and the same store, so the entries, their order and every `find` result
are unchanged; when `n` is at most the current capacity nothing changes at all;
and when the map is empty, inserting at most `n` entries afterwards never
changes the capacity. -/
theorem reserve_keeps_entries {Hash : K → Nat} {Equal : K → K → Bool}
    (law : Lawful Hash Equal) {m : UnorderedMap K V} (hr : Reachable Hash Equal m) (n : Nat) :
    ∃ m', UnorderedMap.reserve Hash m n = some m' ∧ n ≤ m'.capacity ∧
      m'.data = m.data ∧ m'.toList = m.toList ∧ m'.data.handles = m.data.handles ∧
      (∀ k, UnorderedMap.find Hash Equal m' k = UnorderedMap.find Hash Equal m k) ∧
      (n ≤ m.capacity → m' = m) ∧
      (m.size = 0 → ∀ kvs : List (K × V), kvs.length ≤ n →
        ∃ m'', UnorderedMap.insert_range Hash Equal m' kvs = some m'' ∧
          m''.capacity = m'.capacity) := by
  obtain ⟨as, inv⟩ := hr.inv law
  obtain ⟨table, h1, h2, -, -⟩ := reserve_spec Hash inv.wf inv.idx n
  have hcap := reserve_capacity h1
  have inv' : Inv Hash Equal { table := table, data := m.data } as := ⟨inv.wf, h2, inv.uniq⟩
  refine ⟨_, h1, hcap.2.1, rfl, rfl, rfl, fun k => find_eq_of_same_store inv inv' law rfl k,
    hcap.2.2.2.2, ?_⟩
  intro h0 kvs hk
  obtain ⟨es, hes, -⟩ := inv'.toList
  obtain ⟨m'', as', h3, -, -⟩ := insert_range_obs law kvs inv' hes
  refine ⟨m'', h3, (insert_range_capacity kvs h3).2.2 ?_⟩
  have h4 : m.data.sz = 0 := h0
  have h5 : n ≤ table.length := hcap.2.1
  show m.data.sz + kvs.length ≤ table.length
  omega

/-- Witness for C12, the scenario of the specification: `reserve(100)` on the
default-constructed map, then fifty insertions with distinct keys. -/
theorem reserve_keeps_entries_witness :
    Lawful exNatHash exNatEqual ∧
    Reachable exNatHash exNatEqual (UnorderedMap.new : UnorderedMap Nat Nat) ∧
    (UnorderedMap.new : UnorderedMap Nat Nat).size = 0 ∧ exKeys50.length ≤ 100 ∧
    (exKeys50.map Prod.fst).Nodup ∧
    ∃ m' m'', UnorderedMap.reserve exNatHash (UnorderedMap.new : UnorderedMap Nat Nat) 100
        = some m' ∧ 100 ≤ m'.capacity ∧
      UnorderedMap.insert_range exNatHash exNatEqual m' exKeys50 = some m'' ∧
      m''.capacity = m'.capacity := by
  obtain ⟨m', h1, h2, -, -, -, -, -, h3⟩ :=
    reserve_keeps_entries exNatLawful
      (Reachable.new : Reachable exNatHash exNatEqual (UnorderedMap.new : UnorderedMap Nat Nat))
      100
  obtain ⟨m'', h4, h5⟩ := h3 (by decide) exKeys50 (by decide)
  exact ⟨exNatLawful, Reachable.new, by decide, by decide, by decide, m', m'', h1, h2, h4, h5⟩

/-- C13: no single operation makes the index shrink.  Whenever `emplace`,
`insert`, `operator[]`, `erase`, `erase(range)`, `reserve` or `rehash` returns,
the chain count of the result is at least the chain count before the call. -/
theorem capacity_never_shrinks (Hash : K → Nat) (Equal : K → K → Bool)
    (m : UnorderedMap K V) :
    (∀ kv m' r, UnorderedMap.emplace Hash Equal m kv = some (m', r) →
      m.capacity ≤ m'.capacity) ∧
    (∀ kv m' r, UnorderedMap.insert Hash Equal m kv = some (m', r) →
      m.capacity ≤ m'.capacity) ∧
    (∀ dflt key m' v, UnorderedMap.index Hash Equal dflt m key = some (m', v) →
      m.capacity ≤ m'.capacity) ∧
    (∀ it m', UnorderedMap.erase Hash Equal m it = some m' → m.capacity ≤ m'.capacity) ∧
    (∀ fuel first last m', UnorderedMap.erase_range Hash Equal fuel m first last = some m' →
      m.capacity ≤ m'.capacity) ∧
    (∀ n m', UnorderedMap.reserve Hash m n = some m' → m.capacity ≤ m'.capacity) ∧
    (∀ m', UnorderedMap.rehash Hash m = some m' → m.capacity ≤ m'.capacity) := by
  refine ⟨?_, ?_, ?_, ?_, ?_, ?_, ?_⟩
  · intro kv m' r h; exact (emplace_capacity h).1
  · intro kv m' r h; exact (emplace_capacity h).1
  · intro dflt key m' v h; exact (index_capacity h).1
  · intro it m' h; exact Nat.le_of_eq (erase_capacity h).1.symm
  · intro fuel first last m' h; exact Nat.le_of_eq (erase_range_capacity fuel h).1.symm
  · intro n m' h; exact (reserve_capacity h).1
  · intro m' h; exact (rehash_capacity h).1

/-- Witness for C13: on the map holding `("a",1)`, the insertion of `("b",2)`
returns and takes the capacity from 1 to 3; the erasure of the entry returns
and leaves the capacity at 1. -/
theorem capacity_never_shrinks_witness :
    (∃ m' r, UnorderedMap.emplace exHash exEqual exMap1 ("b", 2) = some (m', r) ∧
      exMap1.capacity ≤ m'.capacity ∧ exMap1.capacity = 1 ∧ m'.capacity = 3) ∧
    (∃ m', UnorderedMap.erase exHash exEqual exMap1 2 = some m' ∧
      exMap1.capacity ≤ m'.capacity ∧ m'.capacity = 1) := by
  have h := capacity_never_shrinks exHash exEqual exMap1
  refine ⟨?_, ?_⟩
  · have hc : (UnorderedMap.emplace exHash exEqual exMap1 ("b", 2)).map
        (fun p => p.1.capacity) = some 3 := by decide
    cases he : UnorderedMap.emplace exHash exEqual exMap1 ("b", 2) with
    | none => rw [he] at hc; cases hc
    | some p =>
      obtain ⟨m', r⟩ := p
      rw [he] at hc
      exact ⟨m', r, rfl, h.1 _ _ _ he, by decide, Option.some.inj hc⟩
  · have hc : (UnorderedMap.erase exHash exEqual exMap1 2).map
        (fun p => p.capacity) = some 1 := by decide
    cases he : UnorderedMap.erase exHash exEqual exMap1 2 with
    | none => rw [he] at hc; cases hc
    | some m' =>
      rw [he] at hc
      exact ⟨m', rfl, h.2.2.2.1 _ _ he, Option.some.inj hc⟩

theorem exMap1_wf : exMap1.data.WF [2] := by
  obtain ⟨as, inv⟩ := exMap1_reachable.inv exLawful
  have h1 := inv.wf.handles_eq
  have h2 : exMap1.data.handles = some [2] := by decide
  rw [h2] at h1
  cases h1
  exact inv.wf

theorem exMap4_reachable : Reachable exHash exEqual exMap4 :=
  @Reachable.erase _ _ exHash exEqual exMap3 exMap4 2 exMap3_reachable rfl

theorem exMap4_wf : exMap4.data.WF [3, 4] := by
  obtain ⟨as, inv⟩ := exMap4_reachable.inv exLawful
  have h1 := inv.wf.handles_eq
  have h2 : exMap4.data.handles = some [3, 4] := by decide
  rw [h2] at h1
  cases h1
  exact inv.wf

/-- C19: on every map with a well-formed store, chain count `c` and entry
count `n`, `rehash` returns a map whose chain count is the `j`-th iterate of
`x * 2 + 1` from `c`, for the least `j` (possibly 0) whose iterate is at least
`n`.  An insertion that takes place first records the new handle `it` at the
end of the chain numbered `Hash(key) % c`; the map it returns is the rebuild
(`rehash`) of that recorded state when `c` is less than the new entry count
`n + 1`, and is that recorded state itself, untouched, otherwise. -/
theorem growth_policy (Hash : K → Nat) (Equal : K → K → Bool) {m : UnorderedMap K V}
    {as : List Nat} (wf : m.data.WF as) :
    (∃ m' j, UnorderedMap.rehash Hash m = some m' ∧
      m'.capacity = Nat.iterate grow_step j m.capacity ∧
      m.size ≤ Nat.iterate grow_step j m.capacity ∧
      ∀ i, i < j → Nat.iterate grow_step i m.capacity < m.size) ∧
    (∀ kv m' it, UnorderedMap.emplace Hash Equal m kv = some (m', (it, true)) →
      ∃ (recorded : UnorderedMap K V) (chain : List Nat),
        m.table[Hash kv.1 % m.capacity]? = some chain ∧
        recorded = { table := m.table.set (Hash kv.1 % m.capacity) (chain ++ [it]),
                     data := m.data.emplace_back kv } ∧
        recorded.capacity = m.capacity ∧ recorded.size = m.size + 1 ∧
        ((m.capacity < m.size + 1 ∧ UnorderedMap.rehash Hash recorded = some m') ∨
         (¬ m.capacity < m.size + 1 ∧ m' = recorded))) := by
  refine ⟨?_, ?_⟩
  · obtain ⟨m', h⟩ := rehash_total Hash wf
    obtain ⟨-, h2⟩ := rehash_shape h
    obtain ⟨j, h3, h4, h5⟩ := grow_iterate _ _ _ _ h2
    exact ⟨m', j, h, h3, le_of_le_of_eq h4 h3, h5⟩
  · intro kv m' it h
    rcases emplace_shape h with ⟨hr, -⟩ | ⟨hr, d, chain, hd, hc, hx⟩
    · cases hr
    · have hit : it = m.data.next := congrArg Prod.fst hr
      have hdd : d = Hash kv.1 % m.capacity := by
        unfold UnorderedMap.direct_adress at hd
        by_cases h0 : m.table.length = 0
        · simp [h0] at hd
        · simp only [h0, ↓reduceIte, Option.some.injEq] at hd
          exact hd.symm
      subst hit
      subst hdd
      refine ⟨_, chain, hc, rfl, ?_, rfl, ?_⟩
      · show (m.table.set _ (chain ++ [m.data.next])).length = m.table.length
        simp
      · rcases fix_shape hx with ⟨h1, h2⟩ | ⟨h1, h2⟩
        · left
          simp only [List.length_set] at h1
          exact ⟨h1, h2⟩
        · right
          simp only [List.length_set] at h1
          exact ⟨h1, h2⟩

/-- Witness for C19.  The store holding three entries under a table of one
chain: `rehash` takes the chain count to 3, one round of the loop.  The
insertion of `("b",2)` into the map holding `("a",1)`: one chain is less than
two entries, the result is the rebuild.  The insertion of `("d",4)` after
`("a",1)` was erased from three entries: three chains are not less than three
entries, the result is the recorded state, whose chain `[4, 3, 5]` a rebuild
would have put in the order `[3, 4, 5]`. -/
theorem growth_policy_witness :
    (({ table := [[]], data := exMap3.data } : UnorderedMap String Nat).data.WF [2, 3, 4]) ∧
    ((UnorderedMap.rehash exHash
      ({ table := [[]], data := exMap3.data } : UnorderedMap String Nat)).map
        (fun p => p.capacity) = some 3) ∧
    (∃ m' j, UnorderedMap.rehash exHash
        ({ table := [[]], data := exMap3.data } : UnorderedMap String Nat) = some m' ∧
      m'.capacity = Nat.iterate grow_step j
        ({ table := [[]], data := exMap3.data } : UnorderedMap String Nat).capacity ∧
      ({ table := [[]], data := exMap3.data } : UnorderedMap String Nat).size
        ≤ Nat.iterate grow_step j
          ({ table := [[]], data := exMap3.data } : UnorderedMap String Nat).capacity ∧
      ∀ i, i < j → Nat.iterate grow_step i
          ({ table := [[]], data := exMap3.data } : UnorderedMap String Nat).capacity
        < ({ table := [[]], data := exMap3.data } : UnorderedMap String Nat).size) ∧
    exMap1.data.WF [2] ∧
    UnorderedMap.emplace exHash exEqual exMap1 ("b", 2) = some (exMap2, (3, true)) ∧
    exMap1.table = [[2]] ∧ exMap2.table = [[], [2, 3], []] ∧
    (∃ (recorded : UnorderedMap String Nat) (chain : List Nat),
      exMap1.table[exHash ("b", 2).1 % exMap1.capacity]? = some chain ∧
      recorded = { table := exMap1.table.set (exHash ("b", 2).1 % exMap1.capacity)
                     (chain ++ [3]),
                   data := exMap1.data.emplace_back ("b", 2) } ∧
      recorded.capacity = exMap1.capacity ∧ recorded.size = exMap1.size + 1 ∧
      ((exMap1.capacity < exMap1.size + 1 ∧
          UnorderedMap.rehash exHash recorded = some exMap2) ∨
       (¬ exMap1.capacity < exMap1.size + 1 ∧ exMap2 = recorded))) ∧
    exMap4.data.WF [3, 4] ∧
    UnorderedMap.emplace exHash exEqual exMap4 ("d", 4) = some (exMap5, (5, true)) ∧
    exMap4.table = [[], [4, 3], []] ∧ exMap5.table = [[], [4, 3, 5], []] ∧
    (UnorderedMap.rehash exHash exMap5).map (fun p => p.table) = some [[], [3, 4, 5], []] ∧
    (∃ (recorded : UnorderedMap String Nat) (chain : List Nat),
      exMap4.table[exHash ("d", 4).1 % exMap4.capacity]? = some chain ∧
      recorded = { table := exMap4.table.set (exHash ("d", 4).1 % exMap4.capacity)
                     (chain ++ [5]),
                   data := exMap4.data.emplace_back ("d", 4) } ∧
      recorded.capacity = exMap4.capacity ∧ recorded.size = exMap4.size + 1 ∧
      ((exMap4.capacity < exMap4.size + 1 ∧
          UnorderedMap.rehash exHash recorded = some exMap5) ∨
       (¬ exMap4.capacity < exMap4.size + 1 ∧ exMap5 = recorded))) :=
  ⟨exMap3_wf, by decide,
    (@growth_policy String Nat exHash exEqual ⟨[[]], exMap3.data⟩ [2, 3, 4] exMap3_wf).1,
    exMap1_wf, rfl, by decide, by decide,
    (growth_policy exHash exEqual exMap1_wf).2 ("b", 2) exMap2 3 rfl,
    exMap4_wf, rfl, by decide, by decide, by decide,
    (growth_policy exHash exEqual exMap4_wf).2 ("d", 4) exMap5 5 rfl⟩

/-! ## Indexing, checked access, handle stability and placement -/

/-- C14: on a reachable map, `operator[](k)` with `k` absent appends the entry
`(k, Value())` as the last entry, increases `size()` by one and returns that
default value; with `k` present it returns the value stored under `k` and
leaves the map as it is. -/
theorem index_inserts_default_or_returns_stored {Hash : K → Nat} {Equal : K → K → Bool}
    (law : Lawful Hash Equal) {m : UnorderedMap K V} (hr : Reachable Hash Equal m)
    (dflt : V) (k : K) {es : List (K × V)} (hes : m.toList = some es) :
    ((∀ e ∈ es, Equal e.1 k = false) →
      ∃ m', UnorderedMap.index Hash Equal dflt m k = some (m', dflt) ∧
        m'.toList = some (es ++ [(k, dflt)]) ∧ m'.size = m.size + 1) ∧
    (∀ e ∈ es, Equal e.1 k = true →
      UnorderedMap.index Hash Equal dflt m k = some (m, e.2)) := by
  obtain ⟨as, inv⟩ := hr.inv law
  have hd := inv.derefAll_of_toList hes
  refine ⟨?_, ?_⟩
  · intro hfresh
    have hfind := find_of_no_match inv law ((no_match_iff hd k).2 hfresh)
    obtain ⟨m', h1, -, hdata, hes', -⟩ := emplace_absent_obs inv law (k, dflt) hes hfresh
    have hv : m'.data.val m.data.next = some (k, dflt) := by
      rw [hdata, LinkedList.emplace_back_val, upd_same]
    refine ⟨m', ?_, hes', ?_⟩
    · unfold UnorderedMap.index
      simp only [hfind, UnorderedMap.«end», LinkedList.«end», ↓reduceIte, h1, hv]
    · show m'.data.sz = m.data.sz + 1
      rw [hdata]; rfl
  · intro e he hm
    obtain ⟨a, ha, hv⟩ := (LinkedList.derefAll_mem hd e).1 he
    have hma : keyMatch Equal m.data k a = true := by simp [keyMatch, hv, hm]
    have hfind := find_of_match inv law ha hma
    have hne : a ≠ m.data.root := fun e1 => inv.wf.root_not_mem (e1 ▸ ha)
    unfold UnorderedMap.index
    simp only [hfind, UnorderedMap.«end», LinkedList.«end», hne, ↓reduceIte, hv]

/-- Witness for C14: on the map holding `("a",1)`, `("b",2)`, indexing at
`"c"` (absent) and at `"b"` (present), with default value `0`. -/
theorem index_inserts_default_or_returns_stored_witness :
    Lawful exHash exEqual ∧ Reachable exHash exEqual exMap2 ∧
    exMap2.toList = some [("a", 1), ("b", 2)] ∧
    (∀ e ∈ [("a", 1), ("b", 2)], exEqual e.1 "c" = false) ∧
    (∃ m', UnorderedMap.index exHash exEqual 0 exMap2 "c" = some (m', 0) ∧
      m'.toList = some ([("a", 1), ("b", 2)] ++ [("c", 0)]) ∧ m'.size = exMap2.size + 1) ∧
    UnorderedMap.index exHash exEqual 0 exMap2 "b" = some (exMap2, ("b", 2).2) :=
  ⟨exLawful, exMap2_reachable, by decide, by decide,
    (index_inserts_default_or_returns_stored exLawful exMap2_reachable 0 "c"
      (by decide : exMap2.toList = some [("a", 1), ("b", 2)])).1 (by decide),
    (index_inserts_default_or_returns_stored exLawful exMap2_reachable 0 "b"
      (by decide : exMap2.toList = some [("a", 1), ("b", 2)])).2 ("b", 2) (by decide)
      (by decide)⟩

/-- C15: on a reachable map, `at(k)` reports the out-of-range failure exactly
when no stored entry has a key `Equal` to `k`, and otherwise returns the value
stored under `k`; in both cases the map is left as it is. -/
theorem at_reports_or_returns_stored {Hash : K → Nat} {Equal : K → K → Bool}
    (law : Lawful Hash Equal) {m : UnorderedMap K V} (hr : Reachable Hash Equal m)
    (k : K) {es : List (K × V)} (hes : m.toList = some es) :
    ∃ r, UnorderedMap.«at» Hash Equal m k = some (m, r) ∧
      (r = AtResult.out_of_range ↔ ∀ e ∈ es, Equal e.1 k = false) ∧
      (∀ e ∈ es, Equal e.1 k = true → r = AtResult.value e.2) := by
  obtain ⟨as, inv⟩ := hr.inv law
  have hd := inv.derefAll_of_toList hes
  rcases match_cases Equal m.data k as with ⟨a, ha, hma⟩ | hn
  · obtain ⟨e0, hv0, hm0⟩ := keyMatch_val hma
    have hfind := find_of_match inv law ha hma
    have hne : a ≠ m.data.root := fun e1 => inv.wf.root_not_mem (e1 ▸ ha)
    have he0 : e0 ∈ es := (LinkedList.derefAll_mem hd e0).2 ⟨a, ha, hv0⟩
    refine ⟨AtResult.value e0.2, ?_, ?_, ?_⟩
    · unfold UnorderedMap.«at»
      simp only [hfind, UnorderedMap.«end», LinkedList.«end», hne, ↓reduceIte, hv0]
    · constructor
      · intro h; cases h
      · intro h
        rw [h e0 he0] at hm0
        cases hm0
    · intro e he hm
      obtain ⟨b, hb, hvb⟩ := (LinkedList.derefAll_mem hd e).1 he
      have hmb : keyMatch Equal m.data k b = true := by simp [keyMatch, hvb, hm]
      have hab : a = b := Unique.match_eq inv.uniq law ha hb hma hmb
      subst hab
      rw [hv0] at hvb
      cases hvb
      rfl
  · have hfind := find_of_no_match inv law hn
    refine ⟨AtResult.out_of_range, ?_, ?_, ?_⟩
    · unfold UnorderedMap.«at»
      simp only [hfind, UnorderedMap.«end», LinkedList.«end», ↓reduceIte]
    · constructor
      · intro _; exact (no_match_iff hd k).1 hn
      · intro _; rfl
    · intro e he hm
      rw [(no_match_iff hd k).1 hn e he] at hm
      cases hm

/-- Witness for C15: `at("z")` and `at("b")` on the map holding `("a",1)`, `("b",2)`. -/
theorem at_reports_or_returns_stored_witness :
    Lawful exHash exEqual ∧ Reachable exHash exEqual exMap2 ∧
    exMap2.toList = some [("a", 1), ("b", 2)] ∧
    (∃ r, UnorderedMap.«at» exHash exEqual exMap2 "z" = some (exMap2, r) ∧
      (r = AtResult.out_of_range ↔ ∀ e ∈ [("a", 1), ("b", 2)], exEqual e.1 "z" = false) ∧
      (∀ e ∈ [("a", 1), ("b", 2)], exEqual e.1 "z" = true → r = AtResult.value e.2)) ∧
    (∃ r, UnorderedMap.«at» exHash exEqual exMap2 "b" = some (exMap2, r) ∧
      (r = AtResult.out_of_range ↔ ∀ e ∈ [("a", 1), ("b", 2)], exEqual e.1 "b" = false) ∧
      (∀ e ∈ [("a", 1), ("b", 2)], exEqual e.1 "b" = true → r = AtResult.value e.2)) :=
  ⟨exLawful, exMap2_reachable, by decide,
    at_reports_or_returns_stored exLawful exMap2_reachable "z"
      (by decide : exMap2.toList = some [("a", 1), ("b", 2)]),
    at_reports_or_returns_stored exLawful exMap2_reachable "b"
      (by decide : exMap2.toList = some [("a", 1), ("b", 2)])⟩

/-- C16: on a reachable map, a live handle `h` obtained before an insertion of
a new key still denotes a live node after the insertion, dereferences to the
same entry, and `find` of its key returns `h`; this holds in particular when
the insertion rebuilds the index. -/
theorem handle_stable_across_rehash {Hash : K → Nat} {Equal : K → K → Bool}
    (law : Lawful Hash Equal) {m : UnorderedMap K V} (hr : Reachable Hash Equal m)
    {hs : List Nat} (hhs : m.data.handles = some hs) {h : Nat} (hmem : h ∈ hs)
    {e : K × V} (hv : m.data.val h = some e) {kv : K × V} {m' : UnorderedMap K V} {it : Nat}
    (hemp : UnorderedMap.emplace Hash Equal m kv = some (m', (it, true))) :
    m'.data.val h = some e ∧ m'.data.handles = some (hs ++ [it]) ∧ h ≠ m'.«end» ∧
    UnorderedMap.find Hash Equal m' e.1 = some h := by
  obtain ⟨as, inv⟩ := hr.inv law
  have has : hs = as := by
    have := inv.wf.handles_eq
    rw [hhs] at this
    exact Option.some.inj this
  subst has
  rcases match_cases Equal m.data kv.1 hs with ⟨a, ha, hm⟩ | habs
  · obtain ⟨h1, -⟩ := emplace_present inv law kv ha hm
    rw [h1] at hemp
    cases hemp
  · obtain ⟨table, h1, inv', -⟩ := emplace_absent inv law kv habs
    rw [h1] at hemp
    cases hemp
    have hv' : (m.data.emplace_back kv).val h = some e := by
      rw [inv.wf.emplace_back_val_of_mem kv hmem]; exact hv
    have hmem' : h ∈ hs ++ [m.data.next] := List.mem_append_left _ hmem
    refine ⟨hv', inv'.wf.handles_eq, ?_, find_of_match inv' law hmem' (keyMatch_self law hv')⟩
    intro e1
    have e2 : h = m.data.root := e1
    exact inv.wf.root_not_mem (e2 ▸ hmem)

/-- Witness for C16: the handle `2` of `("a",1)` across the insertion of
`("b",2)`, which takes the capacity from 1 to 3. -/
theorem handle_stable_across_rehash_witness :
    Lawful exHash exEqual ∧ Reachable exHash exEqual exMap1 ∧
    exMap1.data.handles = some [2] ∧ 2 ∈ [2] ∧ exMap1.data.val 2 = some ("a", 1) ∧
    UnorderedMap.emplace exHash exEqual exMap1 ("b", 2) = some (exMap2, (3, true)) ∧
    exMap1.capacity = 1 ∧ exMap2.capacity = 3 ∧
    (exMap2.data.val 2 = some ("a", 1) ∧ exMap2.data.handles = some ([2] ++ [3]) ∧
      2 ≠ exMap2.«end» ∧ UnorderedMap.find exHash exEqual exMap2 ("a", 1).1 = some 2) :=
  ⟨exLawful, exMap1_reachable, by decide, by decide, by decide, rfl, by decide, by decide,
    handle_stable_across_rehash exLawful exMap1_reachable
      (by decide : exMap1.data.handles = some [2]) (by decide : 2 ∈ [2])
      (by decide : exMap1.data.val 2 = some ("a", 1))
      (rfl : UnorderedMap.emplace exHash exEqual exMap1 ("b", 2) = some (exMap2, (3, true)))⟩

theorem count_chain_le_flatten {table : List (List Nat)} {d : Nat} {chain : List Nat}
    (hc : table[d]? = some chain) (h : Nat) : chain.count h ≤ table.flatten.count h := by
  obtain ⟨T1, T2, e, -, -⟩ := table_split table d chain hc
  rw [e]
  simp only [List.flatten_append, List.flatten_cons, List.count_append]
  omega

/-- C18: on a reachable map every live handle occurs exactly once in the whole
index, in the chain numbered `Hash(key) % capacity`, no chain holds anything
but live handles, and `erase(h)` removes from the index the handle `h` and
nothing else. -/
theorem index_placement {Hash : K → Nat} {Equal : K → K → Bool}
    (law : Lawful Hash Equal) {m : UnorderedMap K V} (hr : Reachable Hash Equal m) :
    ∃ hs, m.data.handles = some hs ∧
      (∀ h ∈ hs, ∃ e chain, m.data.val h = some e ∧
        m.table[Hash e.1 % m.capacity]? = some chain ∧ chain.count h = 1 ∧
        m.table.flatten.count h = 1) ∧
      (∀ (d : Nat) (chain : List Nat), m.table[d]? = some chain → ∀ a ∈ chain, a ∈ hs) ∧
      (∀ h ∈ hs, ∃ m', UnorderedMap.erase Hash Equal m h = some m' ∧
        m'.table.flatten.Perm (m.table.flatten.erase h) ∧
        m'.data.handles = some (hs.erase h)) := by
  obtain ⟨as, inv⟩ := hr.inv law
  have hnd : as.Nodup := (List.nodup_cons.1 inv.wf.nodup).2
  have hndf : m.table.flatten.Nodup := (inv.idx.perm.nodup_iff).2 hnd
  refine ⟨as, inv.wf.handles_eq, ?_, fun d chain hc a ha => inv.idx.chain_sub hc ha, ?_⟩
  · intro h hmem
    obtain ⟨e, he⟩ := inv.wf.val_of_mem hmem
    obtain ⟨chain, hc, hic⟩ := inv.idx.mem_chain hmem he
    have h1 : m.table.flatten.count h = 1 :=
      List.count_eq_one_of_mem hndf (inv.idx.perm.symm.subset hmem)
    have h2 := count_chain_le_flatten hc h
    have h3 : 0 < chain.count h := List.count_pos_iff.2 hic
    exact ⟨e, chain, he, hc, by omega, h1⟩
  · intro h hmem
    obtain ⟨m', h1, inv', -⟩ := erase_obs inv law hmem
    refine ⟨m', h1, ?_, inv'.wf.handles_eq⟩
    exact inv'.idx.perm.trans (inv.idx.perm.erase h).symm

/-- Witness for C18: the map holding `("a",1)`, `("b",2)`, `("c",3)`, whose
three handles share one chain. -/
theorem index_placement_witness :
    Lawful exHash exEqual ∧ Reachable exHash exEqual exMap3 ∧
    exMap3.table = [[], [2, 3, 4], []] ∧
    ∃ hs, exMap3.data.handles = some hs ∧
      (∀ h ∈ hs, ∃ e chain, exMap3.data.val h = some e ∧
        exMap3.table[exHash e.1 % exMap3.capacity]? = some chain ∧ chain.count h = 1 ∧
        exMap3.table.flatten.count h = 1) ∧
      (∀ (d : Nat) (chain : List Nat), exMap3.table[d]? = some chain →
        ∀ a ∈ chain, a ∈ hs) ∧
      (∀ h ∈ hs, ∃ m', UnorderedMap.erase exHash exEqual exMap3 h = some m' ∧
        m'.table.flatten.Perm (exMap3.table.flatten.erase h) ∧
        m'.data.handles = some (hs.erase h)) :=
  ⟨exLawful, exMap3_reachable, by decide, index_placement exLawful exMap3_reachable⟩

/-! ## Reverse traversal and construction from another map -/

/-- The reverse loop from the base `q` down to the base `a` visits the cells of
the segment `a, t` from the last one to `a`. -/
theorem LinkedList.reverse_walk_seg (l : LinkedList K V) (a : Nat) :
    ∀ (t : List Nat) (q fuel : Nat), Seg l.left l.right a t q → a ∉ t → q ≠ a →
      t.length + 1 < fuel → l.reverse_walk fuel q a = some ((a :: t).reverse) := by
  intro t
  induction t using List.reverseRecOn with
  | nil =>
    intro q fuel hseg _ hq hf
    obtain ⟨f, rfl⟩ : ∃ f, fuel = f + 2 := ⟨fuel - 2, by simp at hf; omega⟩
    have hl : l.left q = a := hseg.2
    simp [LinkedList.reverse_walk, hq, hl]
  | append_singleton t x ih =>
    intro q fuel hseg ha hq hf
    obtain ⟨f, rfl⟩ : ∃ f, fuel = f + 1 := ⟨fuel - 1, by omega⟩
    have hs := (@Seg.append l.left l.right a t x [] q).1 hseg
    have hl : l.left q = x := hs.2.2
    have hxa : x ≠ a := fun e => ha (by simp [e])
    have hat : a ∉ t := fun h => ha (by simp [h])
    have h1 := ih x f hs.1 hat hxa (by simp at hf; omega)
    rw [LinkedList.reverse_walk]
    simp only [hq, ↓reduceIte, hl, h1]
    simp

/-- On a well-formed list the loop from `rbegin()` to `rend()` visits the
nodes in the reverse of the forward order. -/
theorem LinkedList.WF.reverse_handles_eq {l : LinkedList K V} {as : List Nat} (h : l.WF as) :
    l.reverse_handles = some as.reverse := by
  have hlt := h.length_lt
  cases as with
  | nil =>
    obtain ⟨f, hf⟩ : ∃ f, l.next = f + 1 := ⟨l.next - 1, by simp at hlt; omega⟩
    have hb : l.right l.root = l.root := h.seg.1
    simp [LinkedList.reverse_handles, LinkedList.rbegin, LinkedList.rend, LinkedList.«begin»,
      LinkedList.«end», hf, LinkedList.reverse_walk, hb]
  | cons a t =>
    have hb : l.right l.root = a := h.seg.1
    have hnd := h.nodup
    have hra : l.root ≠ a := fun e => h.root_not_mem (by simp [e])
    have hat : a ∉ t := (List.nodup_cons.1 (List.nodup_cons.1 hnd).2).1
    have := LinkedList.reverse_walk_seg l a t l.root l.next h.seg.2.2 hat hra
      (by simp at hlt; omega)
    simpa [LinkedList.reverse_handles, LinkedList.rbegin, LinkedList.rend, LinkedList.«begin»,
      LinkedList.«end», hb] using this

theorem exMap2_wf : exMap2.data.WF [2, 3] := by
  obtain ⟨as, inv⟩ := exMap2_reachable.inv exLawful
  have h1 := inv.wf.handles_eq
  have h2 : exMap2.data.handles = some [2, 3] := by decide
  rw [h2] at h1
  cases h1
  exact inv.wf

/-- C17: on a well-formed list whose forward traversal visits the nodes `as`,
the loops over `rbegin()`/`rend()` and over `crbegin()`/`crend()` visit
`as.reverse`, while the loop over the read-only pair `rbegin() const`/
`rend() const` visits nothing: both of its ends are built from `cend()`. -/
theorem reverse_iteration {l : LinkedList K V} {as : List Nat} (wf : l.WF as) :
    l.handles = some as ∧ l.reverse_handles = some as.reverse ∧
    l.creverse_handles = some as.reverse ∧ l.reverse_handles_const = some [] := by
  refine ⟨wf.handles_eq, wf.reverse_handles_eq, wf.reverse_handles_eq, ?_⟩
  have hlt := wf.length_lt
  obtain ⟨f, hf⟩ : ∃ f, l.next = f + 1 := ⟨l.next - 1, by omega⟩
  simp [LinkedList.reverse_handles_const, LinkedList.rbegin_const, LinkedList.rend_const, hf,
    LinkedList.reverse_walk]

/-- Witness for C17: the list holding `("a",1)`, `("b",2)` at the handles 2, 3. -/
theorem reverse_iteration_witness :
    exMap2.data.WF [2, 3] ∧ exMap2.data.toList = some [("a", 1), ("b", 2)] ∧
    exMap2.data.derefAll [3, 2] = some [("b", 2), ("a", 1)] ∧
    (exMap2.data.handles = some [2, 3] ∧ exMap2.data.reverse_handles = some [2, 3].reverse ∧
      exMap2.data.creverse_handles = some [2, 3].reverse ∧
      exMap2.data.reverse_handles_const = some []) :=
  ⟨exMap2_wf, by decide, by decide, reverse_iteration exMap2_wf⟩

/-- Every map reachable without copying or moving has at least one chain. -/
theorem Reachable.capacity_pos {Hash : K → Nat} {Equal : K → K → Bool}
    (law : Lawful Hash Equal) {m : UnorderedMap K V} (hr : Reachable Hash Equal m) :
    1 ≤ m.capacity := by
  obtain ⟨as, inv⟩ := hr.inv law
  exact inv.idx.cap_pos

/-- C20: the default-constructed map has one chain, but its copy has none and
so has the source of a move construction; on either of them `emplace` reduces
the hash modulo zero, so it has no defined result. -/
theorem capacity_zero_after_copy_or_move (Hash : K → Nat) (Equal : K → K → Bool)
    (kv : K × V) (m : UnorderedMap K V) :
    (UnorderedMap.new : UnorderedMap K V).capacity = 1 ∧
    (UnorderedMap.copy Hash (UnorderedMap.new : UnorderedMap K V)).map UnorderedMap.capacity
      = some 0 ∧
    ((UnorderedMap.copy Hash (UnorderedMap.new : UnorderedMap K V)).bind
      (fun c => UnorderedMap.emplace Hash Equal c kv)) = none ∧
    (UnorderedMap.move_construct m).2.capacity = 0 ∧
    (UnorderedMap.move_construct m).2.size = 0 ∧
    UnorderedMap.emplace Hash Equal (UnorderedMap.move_construct m).2 kv = none := by
  have hcopy : UnorderedMap.copy Hash (UnorderedMap.new : UnorderedMap K V)
      = some { table := [], data := LinkedList.new } := by
    rfl
  have hemp : ∀ d : LinkedList K V, d.sz = 0 →
      UnorderedMap.emplace Hash Equal { table := [], data := d } kv = none := by
    intro d hd
    simp [UnorderedMap.emplace, UnorderedMap.find, UnorderedMap.find_pos,
      UnorderedMap.direct_adress, LinkedList.emplace_back, LinkedList.size, LinkedList.«end»,
      upd, hd]
  refine ⟨rfl, ?_, ?_, rfl, rfl, ?_⟩
  · rw [hcopy]; rfl
  · rw [hcopy]; exact hemp LinkedList.new rfl
  · exact hemp (UnorderedMap.move_construct m).2.data rfl

/-- Instance of C20 at the string-keyed example: the copy of the empty map and
the source of a move of the map holding `("a",1)`. -/
theorem capacity_zero_after_copy_or_move_witness :
    (UnorderedMap.new : UnorderedMap String Nat).capacity = 1 ∧
    (UnorderedMap.copy exHash (UnorderedMap.new : UnorderedMap String Nat)).map
      UnorderedMap.capacity = some 0 ∧
    ((UnorderedMap.copy exHash (UnorderedMap.new : UnorderedMap String Nat)).bind
      (fun c => UnorderedMap.emplace exHash exEqual c ("a", 1))) = none ∧
    (UnorderedMap.move_construct exMap1).2.capacity = 0 ∧
    (UnorderedMap.move_construct exMap1).2.size = 0 ∧
    UnorderedMap.emplace exHash exEqual (UnorderedMap.move_construct exMap1).2 ("a", 1) = none :=
  capacity_zero_after_copy_or_move exHash exEqual ("a", 1) exMap1

end UMap
